/-
  Verification development for the `jct` JSON configuration tool.

  This file gives a shallow embedding, in Lean 4, of the core of the C
  sources (json_value.c, json_config.c, json_serialize.c, json_parse.c,
  jsonpath.c) and proves or refutes the specification claims about them.

  Modeling conventions:
  * C strings are byte sequences, modelled as `List Nat` (strcmp compares
    bytes as unsigned char, so lexicographic order on `List Nat` is exact).
  * C doubles are modelled exactly by decimal numbers `Dec` (mant * 10^exp).
    Every number the program ever builds comes from a decimal-text parse
    (strtod or the filter literal parser); the program never does arithmetic
    on numbers, it only parses, compares, and formats them, so an exact
    decimal value is a faithful model (the double rounding step of strtod is
    idealised away; no claim depends on it).  `Dec` values compare by
    numeric value (the model of `==` on doubles) through `decNumEq`.
  * Heap mutation of the linked value tree becomes functional update;
    `clone_json_value` (deep copy) is the identity on pure values.
  * Fallible C functions returning NULL / 0 become `Option` / `Bool`.
  * Loops whose progress depends on scanner position use an explicit
    `fuel` argument; all claims are either fuel-generic or evaluated at a
    concrete, sufficiently large fuel.
-/
import Mathlib

namespace Jct

/-- Byte strings: the model of C `char*` data (bytes, as unsigned char). -/
abbrev CStr := List Nat

/-- ASCII codes used throughout. -/
def isdigitB (c : Nat) : Bool := 48 ≤ c && c ≤ 57

def isalphaB (c : Nat) : Bool := (65 ≤ c && c ≤ 90) || (97 ≤ c && c ≤ 122)

def isalnumB (c : Nat) : Bool := isalphaB c || isdigitB c

/-- C `isspace` in the default locale: space, \t, \n, \v, \f, \r. -/
def isspaceB (c : Nat) : Bool := c == 32 || (9 ≤ c && c ≤ 13)

/-- Byte-lexicographic `strcmp a b <= 0` (strcmp compares unsigned chars). -/
def strLeB : CStr → CStr → Bool
  | [], _ => true
  | _ :: _, [] => false
  | a :: as, b :: bs => if a < b then true else if b < a then false else strLeB as bs

/-- Exact decimal number `mant * 10 ^ exp`: the model of a C double
(see the conventions at the top of the file). -/
structure Dec where
  mant : Int
  exp : Int
  deriving DecidableEq, Repr

/-- An integer as a `Dec`. -/
def Dec.ofInt (n : Int) : Dec := ⟨n, 0⟩

/-- Numeric-value equality of two `Dec`s: the model of `==` on doubles. -/
def decNumEq (a b : Dec) : Bool :=
  let s := min a.exp b.exp
  a.mant * 10 ^ (a.exp - s).toNat == b.mant * 10 ^ (b.exp - s).toNat

/-- Numeric-value strict order on `Dec`: the model of `<` on doubles. -/
def decNumLt (a b : Dec) : Bool :=
  let s := min a.exp b.exp
  a.mant * 10 ^ (a.exp - s).toNat < b.mant * 10 ^ (b.exp - s).toNat

/-- The JSON value tree of json_config.h: `JsonType` plus the union payload.
Object members and array items keep their C linked-list order. -/
inductive JsonValue where
  | null
  | bool (b : Bool)
  | number (d : Dec)
  | str (s : CStr)
  | arr (items : List JsonValue)
  | obj (members : List (CStr × JsonValue))

mutual
/-- Syntactic (structural, order-sensitive) equality test used only to get
decidable equality of model values; this is not the program's
`json_values_equal` (which is modelled below). -/
def jsonBeq : JsonValue → JsonValue → Bool
  | .null, .null => true
  | .bool a, .bool b => a == b
  | .number a, .number b => a == b
  | .str a, .str b => a == b
  | .arr a, .arr b => jsonListBeq a b
  | .obj a, .obj b => jsonMembersBeq a b
  | _, _ => false

def jsonListBeq : List JsonValue → List JsonValue → Bool
  | [], [] => true
  | a :: as, b :: bs => jsonBeq a b && jsonListBeq as bs
  | _, _ => false

def jsonMembersBeq : List (CStr × JsonValue) → List (CStr × JsonValue) → Bool
  | [], [] => true
  | (k, v) :: as, (l, w) :: bs => k == l && jsonBeq v w && jsonMembersBeq as bs
  | _, _ => false
end

mutual
theorem jsonBeq_iff : ∀ a b, jsonBeq a b = true ↔ a = b
  | .null, .null => by simp [jsonBeq]
  | .bool a, .bool b => by simp [jsonBeq]
  | .number a, .number b => by simp [jsonBeq]
  | .str a, .str b => by simp [jsonBeq]
  | .arr a, .arr b => by
      simp only [jsonBeq, jsonListBeq_iff a b, JsonValue.arr.injEq]
  | .obj a, .obj b => by
      simp only [jsonBeq, jsonMembersBeq_iff a b, JsonValue.obj.injEq]
  | .null, .bool _ => by simp [jsonBeq]
  | .null, .number _ => by simp [jsonBeq]
  | .null, .str _ => by simp [jsonBeq]
  | .null, .arr _ => by simp [jsonBeq]
  | .null, .obj _ => by simp [jsonBeq]
  | .bool _, .null => by simp [jsonBeq]
  | .bool _, .number _ => by simp [jsonBeq]
  | .bool _, .str _ => by simp [jsonBeq]
  | .bool _, .arr _ => by simp [jsonBeq]
  | .bool _, .obj _ => by simp [jsonBeq]
  | .number _, .null => by simp [jsonBeq]
  | .number _, .bool _ => by simp [jsonBeq]
  | .number _, .str _ => by simp [jsonBeq]
  | .number _, .arr _ => by simp [jsonBeq]
  | .number _, .obj _ => by simp [jsonBeq]
  | .str _, .null => by simp [jsonBeq]
  | .str _, .bool _ => by simp [jsonBeq]
  | .str _, .number _ => by simp [jsonBeq]
  | .str _, .arr _ => by simp [jsonBeq]
  | .str _, .obj _ => by simp [jsonBeq]
  | .arr _, .null => by simp [jsonBeq]
  | .arr _, .bool _ => by simp [jsonBeq]
  | .arr _, .number _ => by simp [jsonBeq]
  | .arr _, .str _ => by simp [jsonBeq]
  | .arr _, .obj _ => by simp [jsonBeq]
  | .obj _, .null => by simp [jsonBeq]
  | .obj _, .bool _ => by simp [jsonBeq]
  | .obj _, .number _ => by simp [jsonBeq]
  | .obj _, .str _ => by simp [jsonBeq]
  | .obj _, .arr _ => by simp [jsonBeq]

theorem jsonListBeq_iff : ∀ a b, jsonListBeq a b = true ↔ a = b
  | [], [] => by simp [jsonListBeq]
  | a :: as, b :: bs => by
      simp [jsonListBeq, jsonBeq_iff a b, jsonListBeq_iff as bs]
  | [], _ :: _ => by simp [jsonListBeq]
  | _ :: _, [] => by simp [jsonListBeq]

theorem jsonMembersBeq_iff : ∀ a b, jsonMembersBeq a b = true ↔ a = b
  | [], [] => by simp [jsonMembersBeq]
  | (k, v) :: as, (l, w) :: bs => by
      simp [jsonMembersBeq, jsonBeq_iff v w, jsonMembersBeq_iff as bs, Prod.ext_iff]
  | [], _ :: _ => by simp [jsonMembersBeq]
  | _ :: _, [] => by simp [jsonMembersBeq]
end

instance : DecidableEq JsonValue := fun a b => decidable_of_iff _ (jsonBeq_iff a b)

/-- Object members. -/
abbrev Members := List (CStr × JsonValue)

/-! ## Value model (json_value.c) -/

/-- `get_object_item` (json_value.c): linear scan, first member whose key
strcmp-equals `key`. -/
def get_object_item : Members → CStr → Option JsonValue
  | [], _ => none
  | (k, v) :: rest, key => if k = key then some v else get_object_item rest key

/-- Replace the value of the first member with the given key, keeping its
position (the in-place `kv->value = value` of add_to_object). -/
def replaceFirstValue : Members → CStr → JsonValue → Members
  | [], _, _ => []
  | (k, w) :: rest, key, v =>
      if k = key then (k, v) :: rest else (k, w) :: replaceFirstValue rest key v

/-- `add_to_object` (json_value.c lines 69-102): if a member with the key
exists, the old value is destroyed and the slot's value replaced in place;
otherwise a new member is linked in at the HEAD of the list
(`new_kv->next = object->value.object_head; object->value.object_head = new_kv`). -/
def add_to_object (members : Members) (key : CStr) (v : JsonValue) : Members :=
  if (get_object_item members key).isSome then replaceFirstValue members key v
  else (key, v) :: members

/-- `add_to_array` (json_value.c): append at the end of the item list. -/
def add_to_array (items : List JsonValue) (v : JsonValue) : List JsonValue :=
  items ++ [v]

/-- `get_array_item` (json_value.c): index < 0 yields NULL, otherwise the
i-th item if it exists. -/
def get_array_item (items : List JsonValue) (index : Int) : Option JsonValue :=
  if index < 0 then none else items.get? index.toNat

/-- `get_array_size` (json_value.c). -/
def get_array_size (items : List JsonValue) : Nat := items.length

/-- Modelled from the spec: `clone_json_value` is declared in json_config.h
and called throughout, but its definition is not among the provided source
files.  Spec section 4.4: "clone(v): deep copy of structure, strings, and
keys."  A deep copy of a pure value is the value itself. -/
def clone_json_value (v : JsonValue) : JsonValue := v

/-! ## Structural equality (json_config.c, json_values_equal) -/

/-- Second loop of the object case of json_values_equal: every key of `mb`
must be present in `ma` (values are not compared in this direction). -/
def keysAllPresent (mb ma : Members) : Bool :=
  mb.all (fun p => (get_object_item ma p.1).isSome)

mutual
/-- `json_values_equal` (json_config.c lines 524-588).  Numbers compare by
double `==`; arrays by size then element-wise; objects by: every member of
`a` equal to the same-key member of `b`, and every key of `b` present in `a`. -/
def json_values_equal : JsonValue → JsonValue → Bool
  | .null, .null => true
  | .bool a, .bool b => a == b
  | .number a, .number b => decNumEq a b
  | .str a, .str b => a == b
  | .arr a, .arr b => a.length == b.length && arrayItemsEqual a b
  | .obj ma, .obj mb => membersEqualIn ma mb && keysAllPresent mb ma
  | _, _ => false

/-- Element-wise equality of array items (the index loop of the array case,
run under the size check). -/
def arrayItemsEqual : List JsonValue → List JsonValue → Bool
  | [], _ => true
  | _ :: _, [] => false
  | a :: as, b :: bs => json_values_equal a b && arrayItemsEqual as bs

/-- First loop of the object case: each member (k, v) of `ma` must satisfy
json_values_equal(v, get_object_item(mb, k)) (NULL lookup compares false). -/
def membersEqualIn : Members → Members → Bool
  | [], _ => true
  | (k, v) :: rest, mb =>
      (match get_object_item mb k with
       | some w => json_values_equal v w
       | none => false) && membersEqualIn rest mb
end

/-! ## Claim C4: add_to_object semantics -/

/-- C4 counterexample: the claim says a new member is appended at the end so
that iteration order equals insertion order.  Inserting key "a" (byte 97)
then key "b" (byte 98) into an empty object yields iteration order
[b, a] - the reverse of insertion order - because add_to_object links new
members in at the head of the list. -/
theorem c4_new_member_is_prepended_counterexample :
    (add_to_object (add_to_object [] [97] JsonValue.null) [98] JsonValue.null).map
        Prod.fst = [[98], [97]] ∧
    ([[98], [97]] : List CStr) ≠ [[97], [98]] := by
  constructor
  · rfl
  · decide

theorem replaceFirstValue_keys (members : Members) (key : CStr) (v : JsonValue) :
    (replaceFirstValue members key v).map Prod.fst = members.map Prod.fst := by
  induction members with
  | nil => rfl
  | cons p rest ih =>
      obtain ⟨k, u⟩ := p
      by_cases hk : k = key <;> simp [replaceFirstValue, hk, ih]

theorem get_replaceFirstValue_self (members : Members) (key : CStr) (v w : JsonValue)
    (hw : get_object_item members key = some w) :
    get_object_item (replaceFirstValue members key v) key = some v := by
  induction members with
  | nil => simp [get_object_item] at hw
  | cons p rest ih =>
      obtain ⟨k, u⟩ := p
      by_cases hk : k = key
      · simp [replaceFirstValue, get_object_item, hk]
      · simp [replaceFirstValue, get_object_item, hk] at hw ⊢
        exact ih hw

/-- C4 (amended): if a member with the key exists, add_to_object replaces
its value in place, keeping the member's position (the key sequence of the
object is unchanged and the member now holds `v`); if no member with the key
exists, the new member is PREPENDED at the head of the member list, so
in-memory iteration order is the reverse of insertion order for new keys. -/
theorem c4_add_to_object_replaces_in_place_else_prepends
    (members : Members) (key : CStr) (v : JsonValue) :
    (get_object_item members key = none →
      add_to_object members key v = (key, v) :: members) ∧
    (∀ w, get_object_item members key = some w →
      add_to_object members key v = replaceFirstValue members key v ∧
      (replaceFirstValue members key v).map Prod.fst = members.map Prod.fst ∧
      get_object_item (replaceFirstValue members key v) key = some v) := by
  refine ⟨fun hnone => ?_, fun w hw => ?_⟩
  · simp [add_to_object, hnone]
  · exact ⟨by simp [add_to_object, hw], replaceFirstValue_keys members key v,
      get_replaceFirstValue_self members key v w hw⟩

/-- Witness for C4's amended theorem at concrete inputs: key [97] is absent
from the empty object (prepend case), and present in [([97], null)]
(replace-in-place case). -/
theorem c4_add_to_object_witness :
    (get_object_item ([] : Members) [97] = none →
      add_to_object [] [97] (JsonValue.bool true) = [([97], JsonValue.bool true)]) ∧
    (add_to_object [([97], JsonValue.null)] [97] (JsonValue.bool true) =
        replaceFirstValue [([97], JsonValue.null)] [97] (JsonValue.bool true) ∧
      (replaceFirstValue [([97], JsonValue.null)] [97] (JsonValue.bool true)).map
          Prod.fst = [[97]] ∧
      get_object_item (replaceFirstValue [([97], JsonValue.null)] [97]
          (JsonValue.bool true)) [97] = some (JsonValue.bool true)) :=
  ⟨fun h => (c4_add_to_object_replaces_in_place_else_prepends [] [97]
      (JsonValue.bool true)).1 h,
   (c4_add_to_object_replaces_in_place_else_prepends [([97], JsonValue.null)] [97]
      (JsonValue.bool true)).2 JsonValue.null rfl⟩

/-! ## Number formatting -/

/-- Decimal digits of a natural number (fuelled division loop; fuel n + 1
always suffices since n shrinks at each step). -/
def natDecimalGo (fuel n : Nat) (acc : CStr) : CStr :=
  match fuel with
  | 0 => acc
  | fuel + 1 =>
      if n < 10 then (48 + n) :: acc
      else natDecimalGo fuel (n / 10) ((48 + n % 10) :: acc)

/-- Decimal rendering of a natural number. -/
def natDecimal (n : Nat) : CStr := natDecimalGo (n + 1) n []

/-- Decimal rendering of an integer (the printf %lld / PRId64 form). -/
def intDecimal (n : Int) : CStr :=
  if n < 0 then 45 :: natDecimal n.natAbs else natDecimal n.natAbs

/-- Whether a `Dec` denotes a mathematical integer. -/
def decIsIntegral (d : Dec) : Bool :=
  0 ≤ d.exp || d.mant % ((10 : Int) ^ (-d.exp).toNat) == 0

/-- The integer denoted by an integral `Dec` (exact; division is exact here
whenever `decIsIntegral` holds, so the rounding convention is irrelevant). -/
def decToInt (d : Dec) : Int :=
  if 0 ≤ d.exp then d.mant * 10 ^ d.exp.toNat else d.mant / 10 ^ (-d.exp).toNat

/-- Model of the C test `json->value.number == (int64_t)json->value.number`:
for doubles inside the int64 range the cast truncates and the test holds
exactly for integral values; for values outside the range the cast is
undefined behaviour in C and in practice (x86/ARM saturation) the test
fails, which the range conjuncts reproduce. -/
def decFitsInt64 (d : Dec) : Bool :=
  decIsIntegral d && -(2 ^ 63) ≤ decToInt d && decToInt d < 2 ^ 63

/-- Strip trailing zero digits (the %g removal of trailing fractional
zeros). -/
def stripZeros (s : CStr) : CStr := (s.reverse.dropWhile (fun c => c == 48)).reverse

/-- Exponent field of %e/%g style: at least two digits. -/
def expDigits (n : Nat) : CStr :=
  let s := natDecimal n
  if s.length < 2 then 48 :: s else s

/-- printf "%g" with default precision 6, computed exactly on `Dec`: round
to 6 significant digits (ties to even, matching the binary rounding for the
exactly-representable values this development evaluates it on), then fixed
style for decimal exponent X with -4 <= X < 6, scientific style otherwise,
with trailing fractional zeros removed. -/
def fmtG (d : Dec) : CStr :=
  if d.mant = 0 then [48]
  else
    let a : Nat := d.mant.natAbs
    let dcount : Nat := (natDecimal a).length
    let X0 : Int := (dcount : Int) - 1 + d.exp
    let MX : Nat × Int :=
      if dcount ≤ 6 then (a * 10 ^ (6 - dcount), X0)
      else
        let p := 10 ^ (dcount - 6)
        let q := a / p
        let r := a % p
        let M0 := if 2 * r > p then q + 1
                  else if 2 * r < p then q
                  else if q % 2 = 0 then q else q + 1
        if M0 = 1000000 then (100000, X0 + 1) else (M0, X0)
    let M := MX.1
    let X := MX.2
    let digs := natDecimal M
    let body :=
      if -4 ≤ X ∧ X < 6 then
        if 0 ≤ X then
          let ip := digs.take (X.toNat + 1)
          let fp := stripZeros (digs.drop (X.toNat + 1))
          if fp = [] then ip else ip ++ [46] ++ fp
        else
          [48, 46] ++ List.replicate (-X - 1).toNat 48 ++ stripZeros digs
      else
        let fp := stripZeros (digs.drop 1)
        (if fp = [] then digs.take 1 else digs.take 1 ++ [46] ++ fp) ++
          [101] ++ (if X < 0 then [45] else [43]) ++ expDigits X.natAbs
    if d.mant < 0 then 45 :: body else body

/-! ## Serializers (json_config.c write_json_to_file, json_serialize.c) -/

/-- Lowercase hex digit byte. -/
def hexDigit (n : Nat) : Nat := if n < 10 then 48 + n else 87 + n

/-- String escaping of write_json_to_file (json_config.c lines 105-148):
backslash, quote, \b \f \n \r \t, and other bytes below 32 as \u00XX. -/
def escapeByteFile (c : Nat) : CStr :=
  if c = 92 then [92, 92]
  else if c = 34 then [92, 34]
  else if c = 8 then [92, 98]
  else if c = 12 then [92, 102]
  else if c = 10 then [92, 110]
  else if c = 13 then [92, 114]
  else if c = 9 then [92, 116]
  else if c < 32 then [92, 117, 48, 48, hexDigit (c / 16), hexDigit (c % 16)]
  else [c]

/-- `escape_string` (json_serialize.c lines 20-84): quote, backslash,
\b \f \n \r \t only; other control bytes pass through unescaped. -/
def escape_string (s : CStr) : CStr :=
  s.flatMap (fun c =>
    if c = 34 then [92, 34]
    else if c = 92 then [92, 92]
    else if c = 8 then [92, 98]
    else if c = 12 then [92, 102]
    else if c = 10 then [92, 110]
    else if c = 13 then [92, 114]
    else if c = 9 then [92, 116]
    else [c])

/-- Insertion of one member into a key-sorted member list (comparator is
compare_json_keys, i.e. strcmp on keys). -/
def insertByKey (p : CStr × CStr) : List (CStr × CStr) → List (CStr × CStr)
  | [] => [p]
  | q :: rest => if strLeB p.1 q.1 then p :: q :: rest else q :: insertByKey p rest

/-- Model of the qsort(compare_json_keys) call in write_json_to_file: a
permutation of the members sorted by strcmp on keys.  qsort's order among
strcmp-equal keys is unspecified; every key-order claim below assumes
pairwise-distinct keys, where the sorted permutation is unique, so any
comparison sort is a faithful model. -/
def sortByKey : List (CStr × CStr) → List (CStr × CStr)
  | [] => []
  | p :: rest => insertByKey p (sortByKey rest)

/-- Two spaces per indent level (the `fprintf(file, "  ")` loop). -/
def fileIndent (n : Nat) : CStr := List.replicate (2 * n) 32

/-- One member line of the file writer: indent, raw (unescaped!) quoted
key, colon-space, body. -/
def fileMemberLine (ind : Nat) (k body : CStr) : CStr :=
  fileIndent ind ++ [34] ++ k ++ [34, 58, 32] ++ body

/-- Join rendered member lines with ",\n". -/
def joinFileMembers (ind : Nat) : List (CStr × CStr) → CStr
  | [] => []
  | [(k, b)] => fileMemberLine ind k b
  | (k, b) :: rest => fileMemberLine ind k b ++ [44, 10] ++ joinFileMembers ind rest

/-- Join rendered array item bodies with ",\n". -/
def joinFileItems (ind : Nat) : List CStr → CStr
  | [] => []
  | [b] => fileIndent ind ++ b
  | b :: rest => fileIndent ind ++ b ++ [44, 10] ++ joinFileItems ind rest

mutual
/-- `write_json_to_file` (json_config.c lines 44-305), as the byte sequence
written.  Objects render each member body first and then emit the member
lines in qsort(strcmp-on-key) order - the C code sorts the member pointers
before writing, and since the comparator reads only keys, sorting the
rendered (key, body) pairs produces the same bytes while keeping the
recursion structural.  Numbers: the integer branch when the double equals
its int64 cast, otherwise %g.  Keys are written raw (not escaped). -/
def write_json_to_file (v : JsonValue) (indent : Nat) : CStr :=
  match v with
  | .null => [110, 117, 108, 108]
  | .bool true => [116, 114, 117, 101]
  | .bool false => [102, 97, 108, 115, 101]
  | .number d => if decFitsInt64 d then intDecimal (decToInt d) else fmtG d
  | .str s => [34] ++ s.flatMap escapeByteFile ++ [34]
  | .arr [] => [91, 93]
  | .arr (v :: items) =>
      [91, 10] ++ joinFileItems (indent + 1) (writeItemsFile (v :: items) (indent + 1)) ++
        [10] ++ fileIndent indent ++ [93]
  | .obj [] => [123, 125]
  | .obj (m :: mems) =>
      [123, 10] ++
        joinFileMembers (indent + 1)
          (sortByKey (writeMembersFile (m :: mems) (indent + 1))) ++
        [10] ++ fileIndent indent ++ [125]

/-- Rendered bodies of array items (each recursive call gets indent + 1,
exactly as in the C loop). -/
def writeItemsFile : List JsonValue → Nat → List CStr
  | [], _ => []
  | v :: rest, ind => write_json_to_file v ind :: writeItemsFile rest ind

/-- Rendered (key, body) pairs of object members. -/
def writeMembersFile : Members → Nat → List (CStr × CStr)
  | [], _ => []
  | (k, v) :: rest, ind => (k, write_json_to_file v ind) :: writeMembersFile rest ind
end

/-- Indentation of serialize_json_to_buffer: 2 * level spaces capped at
100. -/
def bufIndent (lv : Nat) : CStr := List.replicate (min (2 * lv) 100) 32

/-- Join rendered item bodies for the buffer serializer: separator is ","
(compact) or ", " (pretty), and in pretty mode every item is preceded by a
newline and indentation. -/
def joinBufItems (pretty : Bool) (lv : Nat) : List CStr → Bool → CStr
  | [], _ => []
  | b :: rest, first =>
      (if first then [] else if pretty then [44, 32] else [44]) ++
        (if pretty then 10 :: bufIndent (lv + 1) else []) ++ b ++
        joinBufItems pretty lv rest false

/-- Join rendered (key, body) member pairs for the buffer serializer (keys
escaped via escape_string, members NOT sorted). -/
def joinBufMembers (pretty : Bool) (lv : Nat) : List (CStr × CStr) → Bool → CStr
  | [], _ => []
  | (k, b) :: rest, first =>
      (if first then [] else if pretty then [44, 32] else [44]) ++
        (if pretty then 10 :: bufIndent (lv + 1) else []) ++
        [34] ++ escape_string k ++ [34, 58] ++ (if pretty then [32] else []) ++ b ++
        joinBufMembers pretty lv rest false

mutual
/-- `serialize_json_to_buffer` (json_serialize.c lines 263-447): the buffer
serializer behind json_to_string.  Nesting depth above 1000 yields "null";
numbers are ALWAYS formatted with %g (no integer branch); object members
are emitted in list order (no sorting). -/
def serialize_json_to_buffer (v : JsonValue) (pretty : Bool) (level : Nat) : CStr :=
  if level > 1000 then [110, 117, 108, 108]
  else
    match v with
    | .null => [110, 117, 108, 108]
    | .bool true => [116, 114, 117, 101]
    | .bool false => [102, 97, 108, 115, 101]
    | .number d => fmtG d
    | .str s => [34] ++ escape_string s ++ [34]
    | .arr [] => [91, 93]
    | .arr (v :: items) =>
        [91] ++ joinBufItems pretty level (serializeItemsBuf (v :: items) pretty (level + 1)) true ++
          (if pretty then 10 :: bufIndent level else []) ++ [93]
    | .obj [] => [123, 125]
    | .obj (m :: mems) =>
        [123] ++ joinBufMembers pretty level (serializeMembersBuf (m :: mems) pretty (level + 1)) true ++
          (if pretty then 10 :: bufIndent level else []) ++ [125]

/-- Rendered bodies of array items for the buffer serializer. -/
def serializeItemsBuf : List JsonValue → Bool → Nat → List CStr
  | [], _, _ => []
  | v :: rest, pretty, lv => serialize_json_to_buffer v pretty lv :: serializeItemsBuf rest pretty lv

/-- Rendered (key, body) pairs for the buffer serializer. -/
def serializeMembersBuf : Members → Bool → Nat → List (CStr × CStr)
  | [], _, _ => []
  | (k, v) :: rest, pretty, lv =>
      (k, serialize_json_to_buffer v pretty lv) :: serializeMembersBuf rest pretty lv
end

/-- `json_to_string` (json_serialize.c lines 456-496).  The size
pre-calculation and its 100 MiB / allocation-failure fallbacks are not
modelled; on every input this development evaluates, the function returns
the serialized buffer. -/
def json_to_string (v : JsonValue) (pretty : Bool) : CStr :=
  serialize_json_to_buffer v pretty 0

/-! ## Claims C2 and C3: serializer key order and number form -/

theorem strLeB_total : ∀ a b : CStr, strLeB a b = true ∨ strLeB b a = true
  | [], _ => Or.inl rfl
  | _ :: _, [] => Or.inr rfl
  | a :: as, b :: bs => by
      by_cases hab : a < b
      · exact Or.inl (by simp [strLeB, hab])
      · by_cases hba : b < a
        · exact Or.inr (by simp [strLeB, hba])
        · rcases strLeB_total as bs with h | h
          · exact Or.inl (by simp [strLeB, hab, hba, h])
          · exact Or.inr (by simp [strLeB, hab, hba, h])

theorem strLeB_antisymm : ∀ a b : CStr, strLeB a b = true → strLeB b a = true → a = b
  | [], [], _, _ => rfl
  | [], _ :: _, _, h => by simp [strLeB] at h
  | _ :: _, [], h, _ => by simp [strLeB] at h
  | a :: as, b :: bs, h₁, h₂ => by
      by_cases hab : a < b
      · simp [strLeB, hab, Nat.not_lt_of_lt hab] at h₂
      · by_cases hba : b < a
        · simp [strLeB, hba, hab] at h₁
        · have : a = b := Nat.le_antisymm (Nat.not_lt.mp hba) (Nat.not_lt.mp hab)
          subst this
          simp only [strLeB, lt_irrefl, if_false] at h₁ h₂
          rw [strLeB_antisymm as bs h₁ h₂]

theorem strLeB_trans : ∀ a b c : CStr, strLeB a b = true → strLeB b c = true →
    strLeB a c = true
  | [], _, _, _, _ => rfl
  | _ :: _, [], _, h, _ => by simp [strLeB] at h
  | _ :: _, _ :: _, [], _, h => by simp [strLeB] at h
  | a :: as, b :: bs, c :: cs, h₁, h₂ => by
      by_cases hab : a < b
      · by_cases hbc : b < c
        · simp [strLeB, show a < c by omega]
        · by_cases hcb : c < b
          · simp [strLeB, hbc, hcb] at h₂
          · have : b = c := by omega
            subst this
            simp [strLeB, hab]
      · by_cases hba : b < a
        · simp [strLeB, hab, hba] at h₁
        · have hab' : a = b := by omega
          subst hab'
          by_cases hac : a < c
          · simp [strLeB, hac]
          · by_cases hca : c < a
            · simp [strLeB, hca, hac] at h₂
            · have : a = c := by omega
              subst this
              simp only [strLeB, lt_irrefl, if_false] at h₁ h₂ ⊢
              exact strLeB_trans as bs cs h₁ h₂

theorem insertByKey_perm (p : CStr × CStr) (l : List (CStr × CStr)) :
    (insertByKey p l).Perm (p :: l) := by
  induction l with
  | nil => simp [insertByKey]
  | cons q rest ih =>
      by_cases h : strLeB p.1 q.1
      · simp [insertByKey, h]
      · simp only [insertByKey, h, if_false]
        exact ((ih.cons q).trans (List.Perm.swap p q rest))

theorem sortByKey_perm (l : List (CStr × CStr)) : (sortByKey l).Perm l := by
  induction l with
  | nil => simp [sortByKey]
  | cons p rest ih => exact (insertByKey_perm p (sortByKey rest)).trans (ih.cons p)

theorem insertByKey_sorted (p : CStr × CStr) (l : List (CStr × CStr))
    (hl : List.Pairwise (fun a b => strLeB a.1 b.1 = true) l) :
    List.Pairwise (fun a b => strLeB a.1 b.1 = true) (insertByKey p l) := by
  induction l with
  | nil => simp [insertByKey]
  | cons q rest ih =>
      rcases List.pairwise_cons.mp hl with ⟨hq, hrest⟩
      by_cases h : strLeB p.1 q.1
      · simp only [insertByKey, h, if_true]
        refine List.pairwise_cons.mpr ⟨?_, hl⟩
        intro x hx
        rcases List.mem_cons.mp hx with hx | hx
        · exact hx ▸ h
        · exact strLeB_trans _ _ _ h (hq x hx)
      · simp only [insertByKey, h, if_false]
        refine List.pairwise_cons.mpr ⟨?_, ih hrest⟩
        intro x hx
        rcases List.mem_cons.mp ((insertByKey_perm p rest).mem_iff.mp hx) with hx' | hx'
        · subst hx'
          rcases strLeB_total q.1 x.1 with hq' | hq'
          · exact hq'
          · exact absurd hq' (by simpa using h)
        · exact hq x hx'

theorem sortByKey_sorted (l : List (CStr × CStr)) :
    List.Pairwise (fun a b => strLeB a.1 b.1 = true) (sortByKey l) := by
  induction l with
  | nil => simp [sortByKey]
  | cons p rest ih => exact insertByKey_sorted p (sortByKey rest) ih

theorem sorted_perm_nodupKeys_eq :
    ∀ (l₁ l₂ : List (CStr × CStr)), l₁.Perm l₂ →
      List.Pairwise (fun a b => strLeB a.1 b.1 = true) l₁ →
      List.Pairwise (fun a b => strLeB a.1 b.1 = true) l₂ →
      (l₁.map Prod.fst).Nodup → l₁ = l₂
  | [], l₂, h, _, _, _ => (List.Perm.eq_nil h.symm).symm
  | a :: l₁, [], h, _, _, _ => absurd h.symm (by simp)
  | a :: l₁, b :: l₂, h, hs₁, hs₂, hnd => by
      rcases List.pairwise_cons.mp hs₁ with ⟨ha, hs₁'⟩
      rcases List.pairwise_cons.mp hs₂ with ⟨hb, hs₂'⟩
      have hab : a = b := by
        rcases List.mem_cons.mp (h.mem_iff.mp (List.mem_cons_self a l₁)) with hma | hma
        · exact hma
        · rcases List.mem_cons.mp (h.symm.mem_iff.mp (List.mem_cons_self b l₂)) with
            hmb | hmb
          · exact hmb.symm
          · have h₁ : strLeB a.1 b.1 = true := ha b hmb
            have h₂ : strLeB b.1 a.1 = true := hb a hma
            have hkey : a.1 = b.1 := strLeB_antisymm _ _ h₁ h₂
            exfalso
            rcases List.nodup_cons.mp hnd with ⟨hnotin, _⟩
            exact hnotin (hkey ▸ List.mem_map_of_mem Prod.fst hmb)
      subst hab
      have h' := h.cons_inv
      rw [sorted_perm_nodupKeys_eq l₁ l₂ h' hs₁' hs₂'
        (List.nodup_cons.mp hnd).2]

theorem writeMembersFile_eq_map (mems : Members) (ind : Nat) :
    writeMembersFile mems ind =
      mems.map (fun kv => (kv.1, write_json_to_file kv.2 ind)) := by
  induction mems with
  | nil => rfl
  | cons p rest ih =>
      obtain ⟨k, v⟩ := p
      simp [writeMembersFile, ih]

/-- C2 counterexample: for the buffer serializer (serialize_json_to_buffer,
used by json_to_string, cited by the claim), two objects differing only in
member insertion order serialize to DIFFERENT bytes, and the emitted keys
follow list order, not lexicographic order: the object with members
b (98), a (97) serializes with key b first. -/
theorem c2_buffer_serializer_key_order_counterexample :
    ([([98], JsonValue.null), ([97], JsonValue.null)] : Members).Perm
      [([97], JsonValue.null), ([98], JsonValue.null)] ∧
    json_to_string (JsonValue.obj [([98], JsonValue.null), ([97], JsonValue.null)]) false ≠
      json_to_string (JsonValue.obj [([97], JsonValue.null), ([98], JsonValue.null)]) false := by
  constructor
  · decide
  · decide

/-- C2 (amended): the FILE serializer write_json_to_file (used by save)
emits object members sorted by byte-lexicographic key order - the sort is a
sorted permutation of the members - and for it two objects differing only
in member insertion order (with pairwise-distinct keys) produce identical
bytes.  The buffer serializer json_to_string emits members in list order
(see the counterexample). -/
theorem c2_file_writer_sorted_keys_and_order_independence
    (l : List (CStr × CStr)) (mems₁ mems₂ : Members) (ind : Nat)
    (hperm : mems₁.Perm mems₂) (hnd : (mems₁.map Prod.fst).Nodup) :
    (sortByKey l).Perm l ∧
    List.Pairwise (fun a b => strLeB a.1 b.1 = true) (sortByKey l) ∧
    write_json_to_file (JsonValue.obj mems₁) ind =
      write_json_to_file (JsonValue.obj mems₂) ind := by
  refine ⟨sortByKey_perm l, sortByKey_sorted l, ?_⟩
  match mems₁, mems₂, hperm with
  | [], mems₂, hperm => rw [List.Perm.eq_nil hperm.symm]
  | m₁ :: mems₁, mems₂, hperm =>
      match mems₂ with
      | [] => exact absurd hperm (by simp)
      | m₂ :: mems₂ =>
          show [123, 10] ++ _ ++ _ = [123, 10] ++ _ ++ _
          have hr : (writeMembersFile (m₁ :: mems₁) (ind + 1)).Perm
              (writeMembersFile (m₂ :: mems₂) (ind + 1)) := by
            rw [writeMembersFile_eq_map, writeMembersFile_eq_map]
            exact hperm.map _
          have hnd' : ((writeMembersFile (m₁ :: mems₁) (ind + 1)).map Prod.fst).Nodup := by
            rw [writeMembersFile_eq_map]
            simpa using hnd
          have hsorteq : sortByKey (writeMembersFile (m₁ :: mems₁) (ind + 1)) =
              sortByKey (writeMembersFile (m₂ :: mems₂) (ind + 1)) := by
            refine sorted_perm_nodupKeys_eq _ _ ?_ (sortByKey_sorted _) (sortByKey_sorted _) ?_
            · exact (sortByKey_perm _).trans (hr.trans (sortByKey_perm _).symm)
            · exact ((sortByKey_perm _).map Prod.fst).nodup_iff.mpr hnd'
          rw [hsorteq]

/-- Witness for C2's amended theorem: a two-member object in the two
insertion orders produces identical bytes through the file writer. -/
theorem c2_file_writer_witness :
    (sortByKey [([98], [49]), ([97], [50])]).Perm [([98], [49]), ([97], [50])] ∧
    List.Pairwise (fun a b => strLeB a.1 b.1 = true)
      (sortByKey [([98], [49]), ([97], [50])]) ∧
    write_json_to_file
        (JsonValue.obj [([98], JsonValue.null), ([97], JsonValue.bool true)]) 0 =
      write_json_to_file
        (JsonValue.obj [([97], JsonValue.bool true), ([98], JsonValue.null)]) 0 :=
  c2_file_writer_sorted_keys_and_order_independence
    [([98], [49]), ([97], [50])]
    [([98], JsonValue.null), ([97], JsonValue.bool true)]
    [([97], JsonValue.bool true), ([98], JsonValue.null)] 0
    (by decide) (by decide)

theorem natDecimalGo_digits (fuel : Nat) :
    ∀ n acc c, c ∈ natDecimalGo fuel n acc → (48 ≤ c ∧ c ≤ 57) ∨ c ∈ acc := by
  induction fuel with
  | zero => intro n acc c hc; exact Or.inr hc
  | succ fuel ih =>
      intro n acc c hc
      by_cases h : n < 10
      · simp only [natDecimalGo, h, if_true] at hc
        rcases List.mem_cons.mp hc with hc | hc
        · subst hc; exact Or.inl ⟨Nat.le_add_right _ _, by omega⟩
        · exact Or.inr hc
      · simp only [natDecimalGo, h, if_false] at hc
        rcases ih (n / 10) ((48 + n % 10) :: acc) c hc with h' | h'
        · exact Or.inl h'
        · rcases List.mem_cons.mp h' with h' | h'
          · subst h'
            have : n % 10 < 10 := Nat.mod_lt n (by omega)
            exact Or.inl ⟨Nat.le_add_right _ _, by omega⟩
          · exact Or.inr h'

theorem intDecimal_no_point_no_exp (n : Int) :
    46 ∉ intDecimal n ∧ 101 ∉ intDecimal n := by
  have h48 : ∀ c, c ∈ natDecimal n.natAbs → (48 ≤ c ∧ c ≤ 57) := by
    intro c hc
    rcases natDecimalGo_digits (n.natAbs + 1) n.natAbs [] c hc with h | h
    · exact h
    · simp at h
  constructor <;>
  · intro hmem
    unfold intDecimal at hmem
    by_cases hn : n < 0
    · simp only [hn, if_true] at hmem
      rcases List.mem_cons.mp hmem with h | h
      · omega
      · have := h48 _ h; omega
    · simp only [hn, if_false] at hmem
      have := h48 _ hmem; omega

/-- C3 counterexample: the number 12345678 is mathematically integral and
within int64 range, yet the buffer serializer (serialize_json_to_buffer,
cited by the claim) emits it via %g as "1.23457e+07" - which contains a
decimal point and is not the decimal-integer form. -/
theorem c3_buffer_serializer_number_counterexample :
    decFitsInt64 ⟨12345678, 0⟩ = true ∧
    serialize_json_to_buffer (JsonValue.number ⟨12345678, 0⟩) false 0 =
      [49, 46, 50, 51, 52, 53, 55, 101, 43, 48, 55] ∧
    46 ∈ serialize_json_to_buffer (JsonValue.number ⟨12345678, 0⟩) false 0 ∧
    serialize_json_to_buffer (JsonValue.number ⟨12345678, 0⟩) false 0 ≠
      intDecimal (decToInt ⟨12345678, 0⟩) := by
  refine ⟨by decide, by decide, by decide, by decide⟩

/-- C3 (amended): the FILE serializer write_json_to_file emits a number
that is integral and within int64 range as a decimal integer containing
neither a decimal point nor an exponent, and every other number via %g;
the buffer serializer serialize_json_to_buffer formats EVERY number via %g
(at any nesting depth within the 1000 guard). -/
theorem c3_number_serialization (d : Dec) (pretty : Bool) (lvl ind : Nat)
    (hlvl : lvl ≤ 1000) :
    (decFitsInt64 d = true →
      write_json_to_file (JsonValue.number d) ind = intDecimal (decToInt d) ∧
      46 ∉ write_json_to_file (JsonValue.number d) ind ∧
      101 ∉ write_json_to_file (JsonValue.number d) ind) ∧
    (decFitsInt64 d = false →
      write_json_to_file (JsonValue.number d) ind = fmtG d) ∧
    serialize_json_to_buffer (JsonValue.number d) pretty lvl = fmtG d := by
  refine ⟨fun hfit => ?_, fun hfit => ?_, ?_⟩
  · have he : write_json_to_file (JsonValue.number d) ind = intDecimal (decToInt d) := by
      simp [write_json_to_file, hfit]
    exact ⟨he, he ▸ (intDecimal_no_point_no_exp (decToInt d)).1,
      he ▸ (intDecimal_no_point_no_exp (decToInt d)).2⟩
  · simp [write_json_to_file, hfit]
  · have : ¬ lvl > 1000 := by omega
    simp [serialize_json_to_buffer, this]

/-- Witness for C3's amended theorem: the integral in-range number 5 prints
as the decimal integer "5" through the file writer, and as %g through the
buffer serializer. -/
theorem c3_number_serialization_witness :
    (decFitsInt64 ⟨5, 0⟩ = true →
      write_json_to_file (JsonValue.number ⟨5, 0⟩) 0 = intDecimal (decToInt ⟨5, 0⟩) ∧
      46 ∉ write_json_to_file (JsonValue.number ⟨5, 0⟩) 0 ∧
      101 ∉ write_json_to_file (JsonValue.number ⟨5, 0⟩) 0) ∧
    (decFitsInt64 ⟨5, 0⟩ = false →
      write_json_to_file (JsonValue.number ⟨5, 0⟩) 0 = fmtG ⟨5, 0⟩) ∧
    serialize_json_to_buffer (JsonValue.number ⟨5, 0⟩) false 0 = fmtG ⟨5, 0⟩ :=
  c3_number_serialization ⟨5, 0⟩ false 0 0 (by omega)

/-! ## Claim C1: save_config atomicity (json_config.c lines 314-455) -/

/-- A file system: path (C string) to file content, none = no file. -/
def FS : Type := CStr → Option CStr

/-- Point update of a file system. -/
def updateFS (fs : FS) (p : CStr) (c : Option CStr) : FS :=
  fun q => if q = p then c else fs q

/-- Outcome of the rename(temp, target) call. -/
inductive RenameOutcome where
  | ok
  | exdev
  | fail
  deriving DecidableEq

/-- Schedule of I/O outcomes for one save_config run: which calls succeed.
`copyPrefix = some k` means the EXDEV fallback's fwrite loop fails after k
bytes have reached the target; `none` means the copy completes. -/
structure SaveEnv where
  openTempOk : Bool
  writeOk : Bool
  rename : RenameOutcome
  openSrcOk : Bool
  openDstOk : Bool
  copyPrefix : Option Nat
  deriving DecidableEq

/-- `save_config` (json_config.c lines 314-455) as a file-system transformer:
serialize with write_json_to_file plus a trailing newline into the temp
file, rename onto the target; on EXDEV fall back to fopen(target, "w") -
which TRUNCATES the target - then stream-copy and unlink the temp; on any
failure unlink the temp and return failure.  Returns (success, new fs). -/
def save_config (env : SaveEnv) (fs : FS) (temp target : CStr) (json : JsonValue) :
    Bool × FS :=
  if env.openTempOk = false then (false, fs)
  else
    let data := write_json_to_file json 0 ++ [10]
    let fs1 := updateFS fs temp (some [])
    if env.writeOk = false then (false, updateFS fs1 temp none)
    else
      let fs2 := updateFS fs1 temp (some data)
      match env.rename with
      | .ok => (true, updateFS (updateFS fs2 temp none) target (some data))
      | .fail => (false, updateFS fs2 temp none)
      | .exdev =>
          if env.openSrcOk = false then (false, updateFS fs2 temp none)
          else if env.openDstOk = false then (false, updateFS fs2 temp none)
          else
            match env.copyPrefix with
            | none => (true, updateFS (updateFS fs2 target (some data)) temp none)
            | some k =>
                (false, updateFS (updateFS fs2 target (some (data.take k))) temp none)

/-- C1 counterexample: rename fails with EXDEV, the fallback fopen of the
target succeeds (truncating it), and the first fwrite fails.  save_config
returns failure, yet the target - which held the byte "x" (120) before the
call - is now empty: a failed save CAN truncate the target. -/
theorem c1_failed_save_truncates_target_counterexample :
    (save_config ⟨true, true, .exdev, true, true, some 0⟩
        (fun q => if q = [117] then some [120] else none) [116] [117]
        JsonValue.null).1 = false ∧
    (fun q => if q = ([117] : CStr) then some ([120] : CStr) else none) [117] =
      some [120] ∧
    (save_config ⟨true, true, .exdev, true, true, some 0⟩
        (fun q => if q = [117] then some [120] else none) [116] [117]
        JsonValue.null).2 [117] = some [] ∧
    some ([] : CStr) ≠ some [120] := by
  refine ⟨rfl, rfl, rfl, by decide⟩

/-- C1 (amended): after a failed save_config the target file content equals
its pre-call content, UNLESS the failure happened in the cross-device
(EXDEV) copy fallback after the destination fopen succeeded; in that case
the target holds a prefix (data.take k) of the new serialized content
instead.  First conjunct: every failure is either in that fallback window
or leaves the target untouched.  Second conjunct: in the fallback window
with a failing copy, save fails and the target holds exactly the written
prefix. -/
theorem c1_failed_save_target_content (env : SaveEnv) (fs : FS)
    (temp target : CStr) (json : JsonValue) (hne : temp ≠ target) :
    ((save_config env fs temp target json).1 = false →
      (env.rename = RenameOutcome.exdev ∧ env.openSrcOk = true ∧
        env.openDstOk = true) ∨
      (save_config env fs temp target json).2 target = fs target) ∧
    (∀ k, env.openTempOk = true → env.writeOk = true →
      env.rename = RenameOutcome.exdev → env.openSrcOk = true →
      env.openDstOk = true → env.copyPrefix = some k →
      (save_config env fs temp target json).1 = false ∧
      (save_config env fs temp target json).2 target =
        some ((write_json_to_file json 0 ++ [10]).take k)) := by
  have hne' : ¬ target = temp := fun h => hne h.symm
  have hupd : ∀ (g : FS) c, updateFS g temp c target = g target := by
    intro g c
    simp [updateFS, hne']
  obtain ⟨ot, wr, rn, os, od, cp⟩ := env
  constructor
  · intro hfail
    cases ot
    · simp [save_config]
    · cases wr
      · right
        simp [save_config, hupd]
      · cases rn with
        | ok => simp [save_config] at hfail
        | fail => right; simp [save_config, hupd]
        | exdev =>
            cases os
            · right; simp [save_config, hupd]
            · cases od
              · right; simp [save_config, hupd]
              · left; exact ⟨rfl, rfl, rfl⟩
  · intro k hot hwr hrn hos hod hcp
    subst hot; subst hwr; subst hrn; subst hos; subst hod; subst hcp
    refine ⟨by simp [save_config], ?_⟩
    simp [save_config, updateFS, hne']

/-- Witness for C1's amended theorem at a concrete schedule: a write
failure (non-EXDEV path) leaves the target untouched, and the EXDEV window
with a failing copy leaves the prefix. -/
theorem c1_failed_save_target_content_witness :
    (((save_config ⟨true, false, .ok, true, true, none⟩ (fun _ => none)
          [116] [117] JsonValue.null).1 = false →
        ((RenameOutcome.ok = RenameOutcome.exdev ∧ (true : Bool) = true ∧
          (true : Bool) = true) ∨
        (save_config ⟨true, false, .ok, true, true, none⟩ (fun _ => none)
          [116] [117] JsonValue.null).2 [117] = (fun _ => none : FS) [117]))) ∧
    ((save_config ⟨true, true, .exdev, true, true, some 1⟩ (fun _ => none)
        [116] [117] JsonValue.null).1 = false ∧
      (save_config ⟨true, true, .exdev, true, true, some 1⟩ (fun _ => none)
        [116] [117] JsonValue.null).2 [117] =
        some ((write_json_to_file JsonValue.null 0 ++ [10]).take 1)) :=
  ⟨(c1_failed_save_target_content ⟨true, false, .ok, true, true, none⟩
      (fun _ => none) [116] [117] JsonValue.null (by decide)).1,
   (c1_failed_save_target_content ⟨true, true, .exdev, true, true, some 1⟩
      (fun _ => none) [116] [117] JsonValue.null (by decide)).2 1
      rfl rfl rfl rfl rfl rfl⟩

/-! ## Tree kernel: merge and diff (json_config.c) -/

mutual
/-- `merge_object_into` (json_config.c lines 458-491): for each member
(k, v_src) of src in order, if dest has k and both children are objects,
recurse in place; otherwise add_to_object dest k clone(v_src). -/
def merge_object_into : Members → Members → Members
  | dmems, [] => dmems
  | dmems, (k, vs) :: rest => merge_object_into (mergeStep dmems k vs) rest

/-- One iteration of the merge_object_into loop on dest for source member
(k, vs). -/
def mergeStep (dmems : Members) (k : CStr) (vs : JsonValue) : Members :=
  match get_object_item dmems k, vs with
  | some (JsonValue.obj dm), JsonValue.obj sm =>
      replaceFirstValue dmems k (JsonValue.obj (merge_object_into dm sm))
  | _, _ => add_to_object dmems k (clone_json_value vs)
end

/-- `merge_json_into` (json_config.c lines 493-521) on present values: if
both are objects merge member-wise, otherwise dest is destroyed and
replaced by a clone of src. -/
def merge_json_into (dest src : JsonValue) : JsonValue :=
  match dest, src with
  | JsonValue.obj dm, JsonValue.obj sm => JsonValue.obj (merge_object_into dm sm)
  | _, _ => clone_json_value src

mutual
/-- `diff_objects` (json_config.c lines 591-641), with the output object
built through add_to_object exactly as in the C loop (acc is the diff
object under construction). -/
def diff_objects_go : Members → Members → Members → Members
  | [], _, acc => acc
  | (k, mc) :: rest, omems, acc =>
      diff_objects_go rest omems (diffStep k mc (get_object_item omems k) acc)

/-- One iteration of the diff_objects loop: a key absent from original is
included as a clone; object-object children are diffed recursively and
included when the child diff is non-empty; other children are included
when json_values_equal fails. -/
def diffStep (k : CStr) (mc : JsonValue) (oc? : Option JsonValue) (acc : Members) :
    Members :=
  match oc?, mc with
  | none, _ => add_to_object acc k (clone_json_value mc)
  | some (JsonValue.obj om), JsonValue.obj mm =>
      let child := diff_objects_go mm om []
      if child = [] then acc else add_to_object acc k (JsonValue.obj child)
  | some oc, _ =>
      if json_values_equal mc oc then acc
      else add_to_object acc k (clone_json_value mc)
end

/-- `diff_json` (json_config.c lines 650-673) on present values: both
objects diff recursively; otherwise an empty object when equal, else a
clone of modified. -/
def diff_json (modified original : JsonValue) : JsonValue :=
  match modified, original with
  | JsonValue.obj mm, JsonValue.obj om => JsonValue.obj (diff_objects_go mm om [])
  | _, _ =>
      if json_values_equal modified original then JsonValue.obj []
      else clone_json_value modified

/-- The per-key content of the diff object (what diffStep records for one
modified member). -/
def diffEntry (mc : JsonValue) (oc? : Option JsonValue) : Option JsonValue :=
  match oc?, mc with
  | none, _ => some mc
  | some (JsonValue.obj om), JsonValue.obj mm =>
      let child := diff_objects_go mm om []
      if child = [] then none else some (JsonValue.obj child)
  | some oc, _ => if json_values_equal mc oc then none else some mc

/-- Duplicate-free keys of a member list (the invariant add_to_object
maintains). -/
def nodupKeysB : Members → Bool
  | [] => true
  | (k, _) :: rest => (get_object_item rest k).isNone && nodupKeysB rest

mutual
/-- Well-formed value: every object in the tree has duplicate-free keys.
Trees built by the parser, the constructors and add_to_object always
satisfy this (spec section 3: duplicate keys are not introduced). -/
def wfJson : JsonValue → Bool
  | .null => true
  | .bool _ => true
  | .number _ => true
  | .str _ => true
  | .arr items => wfList items
  | .obj mems => nodupKeysB mems && wfMems mems

def wfList : List JsonValue → Bool
  | [] => true
  | v :: rest => wfJson v && wfList rest

def wfMems : Members → Bool
  | [] => true
  | (_, v) :: rest => wfJson v && wfMems rest
end

mutual
/-- Recursive key coverage: at the top and wherever both same-key children
are objects, every key of the original appears in the modified value.
This is exactly the information diff_objects discards (it never records
keys deleted from original), hence the hypothesis of the amended C5. -/
def coversB : JsonValue → JsonValue → Bool
  | .obj mm, .obj om => keysAllPresent om mm && coversMems mm om
  | _, _ => true

def coversMems : Members → Members → Bool
  | [], _ => true
  | (k, v) :: rest, om =>
      (match get_object_item om k with
       | some w => coversB v w
       | none => true) && coversMems rest om
end

/-- Pointwise relation between lookups used to characterise object
equality. -/
def optEqJ : Option JsonValue → Option JsonValue → Prop
  | none, none => True
  | some v, some w => json_values_equal v w = true
  | _, _ => False

/-! ### Lookup and key infrastructure for C5 -/

theorem mem_of_get_object_item : ∀ (m : Members) (k : CStr) (v : JsonValue),
    get_object_item m k = some v → (k, v) ∈ m
  | [], _, _, h => by simp [get_object_item] at h
  | (k₀, w) :: rest, k, v, h => by
      by_cases hk : k₀ = k
      · subst hk
        simp [get_object_item] at h
        simp [h]
      · simp [get_object_item, hk] at h
        exact List.mem_cons_of_mem _ (mem_of_get_object_item rest k v h)

theorem get_isSome_of_mem : ∀ (m : Members) (k : CStr) (v : JsonValue),
    (k, v) ∈ m → (get_object_item m k).isSome = true
  | [], _, _, h => by simp at h
  | (k₀, w) :: rest, k, v, h => by
      by_cases hk : k₀ = k
      · simp [get_object_item, hk]
      · rcases List.mem_cons.mp h with h | h
        · simp only [Prod.mk.injEq] at h
          exact absurd h.1.symm hk
        · simp [get_object_item, hk]
          exact get_isSome_of_mem rest k v h

theorem get_of_mem_nodup : ∀ (m : Members) (k : CStr) (v : JsonValue),
    nodupKeysB m = true → (k, v) ∈ m → get_object_item m k = some v
  | [], _, _, _, h => by simp at h
  | (k₀, w) :: rest, k, v, hnd, h => by
      simp only [nodupKeysB, Bool.and_eq_true] at hnd
      rcases List.mem_cons.mp h with h | h
      · simp only [Prod.mk.injEq] at h
        obtain ⟨h₁, h₂⟩ := h
        subst h₁; subst h₂
        simp [get_object_item]
      · by_cases hk : k₀ = k
        · subst hk
          have hr := get_of_mem_nodup rest _ v hnd.2 h
          rw [hr] at hnd
          simp at hnd
        · simp [get_object_item, hk]
          exact get_of_mem_nodup rest k v hnd.2 h

theorem get_replaceFirstValue_other : ∀ (m : Members) (k : CStr) (v : JsonValue)
    (key : CStr), key ≠ k →
    get_object_item (replaceFirstValue m k v) key = get_object_item m key
  | [], _, _, _, _ => rfl
  | (k₀, w) :: rest, k, v, key, hne => by
      by_cases hk : k₀ = k
      · subst hk
        have : ¬ k₀ = key := fun h => hne h.symm
        simp [replaceFirstValue, get_object_item, this]
      · by_cases hkey : k₀ = key
        · subst hkey
          simp [replaceFirstValue, get_object_item, hk]
        · simp [replaceFirstValue, get_object_item, hk, hkey]
          exact get_replaceFirstValue_other rest k v key hne

theorem get_add_to_object (m : Members) (k : CStr) (v : JsonValue) (key : CStr) :
    get_object_item (add_to_object m k v) key =
      if key = k then some v else get_object_item m key := by
  by_cases hkey : key = k
  · subst hkey
    rcases h : get_object_item m key with _ | w
    · simp [add_to_object, h, get_object_item]
    · simp only [add_to_object, h, Option.isSome_some, if_true]
      simp [get_replaceFirstValue_self m key v w h]
  · rcases h : get_object_item m k with _ | w
    · have hk' : ¬ k = key := fun hh => hkey hh.symm
      simp [add_to_object, h, get_object_item, hkey, hk']
    · simp only [add_to_object, h, Option.isSome_some, if_true, if_neg hkey]
      exact get_replaceFirstValue_other m k v key hkey

theorem isNone_get_replaceFirstValue : ∀ (m : Members) (k : CStr) (v : JsonValue)
    (key : CStr),
    (get_object_item (replaceFirstValue m k v) key).isNone =
      (get_object_item m key).isNone
  | [], _, _, _ => rfl
  | (k₀, w) :: rest, k, v, key => by
      by_cases hk : k₀ = k
      · subst hk
        by_cases hkey : k₀ = key <;>
          simp [replaceFirstValue, get_object_item, hkey]
      · by_cases hkey : k₀ = key
        · subst hkey
          simp [replaceFirstValue, get_object_item, hk]
        · simp [replaceFirstValue, get_object_item, hk, hkey]
          exact isNone_get_replaceFirstValue rest k v key

theorem nodupKeysB_replaceFirstValue : ∀ (m : Members) (k : CStr) (v : JsonValue),
    nodupKeysB m = true → nodupKeysB (replaceFirstValue m k v) = true
  | [], _, _, _ => rfl
  | (k₀, w) :: rest, k, v, hnd => by
      simp only [nodupKeysB, Bool.and_eq_true] at hnd
      by_cases hk : k₀ = k
      · subst hk
        simp [replaceFirstValue, nodupKeysB, hnd.1, hnd.2]
      · simp only [replaceFirstValue, hk, if_false, nodupKeysB, Bool.and_eq_true]
        exact ⟨by rw [isNone_get_replaceFirstValue]; exact hnd.1,
          nodupKeysB_replaceFirstValue rest k v hnd.2⟩

theorem nodupKeysB_add_to_object (m : Members) (k : CStr) (v : JsonValue)
    (hnd : nodupKeysB m = true) : nodupKeysB (add_to_object m k v) = true := by
  rcases h : get_object_item m k with _ | w
  · simp [add_to_object, h, nodupKeysB, hnd]
  · simp only [add_to_object, h, Option.isSome_some, if_true]
    exact nodupKeysB_replaceFirstValue m k v hnd

theorem wfMems_mem : ∀ (m : Members) (k : CStr) (v : JsonValue),
    wfMems m = true → (k, v) ∈ m → wfJson v = true
  | [], _, _, _, h => by simp at h
  | (k₀, w) :: rest, k, v, hwf, h => by
      simp only [wfMems, Bool.and_eq_true] at hwf
      rcases List.mem_cons.mp h with h | h
      · simp only [Prod.mk.injEq] at h
        rw [h.2]
        exact hwf.1
      · exact wfMems_mem rest k v hwf.2 h

theorem coversMems_mem : ∀ (mm om : Members) (k : CStr) (v w : JsonValue),
    coversMems mm om = true → (k, v) ∈ mm → get_object_item om k = some w →
    coversB v w = true
  | [], _, _, _, _, _, h, _ => by simp at h
  | (k₀, v₀) :: rest, om, k, v, w, hc, h, hget => by
      simp only [coversMems, Bool.and_eq_true] at hc
      rcases List.mem_cons.mp h with h | h
      · simp only [Prod.mk.injEq] at h
        obtain ⟨h₁, h₂⟩ := h
        subst h₁; subst h₂
        have := hc.1
        rw [hget] at this
        exact this
      · exact coversMems_mem rest om k v w hc.2 h hget

/-! ### Characterisation of diff_objects and merge_object_into -/

theorem diffStep_eq (k : CStr) (mc : JsonValue) (oc? : Option JsonValue)
    (acc : Members) :
    diffStep k mc oc? acc =
      (match diffEntry mc oc? with
       | none => acc
       | some x => add_to_object acc k x) := by
  rcases oc? with _ | oc
  · rcases mc with _ | b | d | s | items | mm <;> rfl
  · rcases mc with _ | b | d | s | items | mm <;>
      rcases oc with _ | b' | d' | s' | items' | om <;>
      simp only [diffStep, diffEntry, clone_json_value] <;>
      split <;> rfl

theorem get_diffStep_self (k : CStr) (mc : JsonValue) (oc? : Option JsonValue)
    (acc : Members) (hacc : get_object_item acc k = none) :
    get_object_item (diffStep k mc oc? acc) k = diffEntry mc oc? := by
  rw [diffStep_eq]
  rcases h : diffEntry mc oc? with _ | x
  · exact hacc
  · simp [get_add_to_object]

theorem get_diffStep_other (k : CStr) (mc : JsonValue) (oc? : Option JsonValue)
    (acc : Members) (key : CStr) (hne : key ≠ k) :
    get_object_item (diffStep k mc oc? acc) key = get_object_item acc key := by
  rw [diffStep_eq]
  rcases diffEntry mc oc? with _ | x
  · rfl
  · simp [get_add_to_object, hne]

theorem nodupKeysB_diffStep (k : CStr) (mc : JsonValue) (oc? : Option JsonValue)
    (acc : Members) (h : nodupKeysB acc = true) :
    nodupKeysB (diffStep k mc oc? acc) = true := by
  rw [diffStep_eq]
  rcases diffEntry mc oc? with _ | x
  · exact h
  · exact nodupKeysB_add_to_object acc k x h

theorem nodupKeysB_diff_objects_go : ∀ (mm om acc : Members),
    nodupKeysB acc = true → nodupKeysB (diff_objects_go mm om acc) = true
  | [], _, _, h => h
  | (k, mc) :: rest, om, acc, h =>
      nodupKeysB_diff_objects_go rest om _
        (nodupKeysB_diffStep k mc (get_object_item om k) acc h)

theorem get_diff_objects_go : ∀ (mm om acc : Members) (key : CStr),
    nodupKeysB mm = true →
    (∀ key', (get_object_item mm key').isSome = true →
      get_object_item acc key' = none) →
    get_object_item (diff_objects_go mm om acc) key =
      (match get_object_item mm key with
       | some mc => diffEntry mc (get_object_item om key)
       | none => get_object_item acc key)
  | [], om, acc, key, _, _ => by simp [diff_objects_go, get_object_item]
  | (k, mc) :: rest, om, acc, key, hnd, hdisj => by
      simp only [nodupKeysB, Bool.and_eq_true] at hnd
      have hacck : get_object_item acc k = none := by
        apply hdisj
        simp [get_object_item]
      have hdisj' : ∀ key', (get_object_item rest key').isSome = true →
          get_object_item (diffStep k mc (get_object_item om k) acc) key' = none := by
        intro key' hsome
        by_cases hk : key' = k
        · subst hk
          rcases hv : get_object_item rest key' with _ | v
          · rw [hv] at hsome; simp at hsome
          · rw [hv] at hnd; simp at hnd
        · rw [get_diffStep_other k mc _ acc key' hk]
          apply hdisj
          have : ¬ k = key' := fun hh => hk hh.symm
          simpa [get_object_item, this] using hsome
      rw [diff_objects_go, get_diff_objects_go rest om _ key hnd.2 hdisj']
      by_cases hk : key = k
      · subst hk
        have hrest : get_object_item rest key = none := by
          rcases hv : get_object_item rest key with _ | v
          · rfl
          · rw [hv] at hnd; simp at hnd
        rw [hrest, get_diffStep_self _ mc _ acc hacck]
        simp [get_object_item]
      · have hkk : ¬ k = key := fun hh => hk hh.symm
        rw [get_diffStep_other k mc _ acc key hk]
        simp [get_object_item, hkk]

/-- The value merge_object_into stores for source member value vs at a key
whose current dest value is dc?. -/
def mergeEntry (dc? : Option JsonValue) (vs : JsonValue) : JsonValue :=
  match dc?, vs with
  | some (JsonValue.obj dm), JsonValue.obj sm => JsonValue.obj (merge_object_into dm sm)
  | _, _ => vs

theorem get_mergeStep (dmems : Members) (k : CStr) (vs : JsonValue) (key : CStr) :
    get_object_item (mergeStep dmems k vs) key =
      if key = k then some (mergeEntry (get_object_item dmems k) vs)
      else get_object_item dmems key := by
  rw [mergeStep.eq_def]
  rcases hd : get_object_item dmems k with _ | dc
  · rcases vs with _ | b | d | s | items | sm <;>
      simp [mergeEntry, clone_json_value, get_add_to_object]
  · rcases dc with _ | b' | d' | s' | items' | dm <;>
      rcases vs with _ | b | d | s | items | sm <;>
      simp only [mergeEntry, clone_json_value] <;>
      first
      | simp [get_add_to_object]
      | (by_cases hk : key = k
         · subst hk
           simp [get_replaceFirstValue_self _ _ _ _ hd]
         · simp [hk, get_replaceFirstValue_other dmems k _ key hk])

theorem nodupKeysB_mergeStep (dmems : Members) (k : CStr) (vs : JsonValue)
    (h : nodupKeysB dmems = true) : nodupKeysB (mergeStep dmems k vs) = true := by
  rw [mergeStep.eq_def]
  rcases hd : get_object_item dmems k with _ | dc
  · rcases vs with _ | b | d | s | items | sm <;>
      exact nodupKeysB_add_to_object _ _ _ h
  · rcases dc with _ | b' | d' | s' | items' | dm <;>
      rcases vs with _ | b | d | s | items | sm <;>
      first
      | exact nodupKeysB_add_to_object _ _ _ h
      | exact nodupKeysB_replaceFirstValue _ _ _ h

theorem nodupKeysB_merge_object_into : ∀ (smems dmems : Members),
    nodupKeysB dmems = true → nodupKeysB (merge_object_into dmems smems) = true
  | [], _, h => h
  | (k, vs) :: rest, dmems, h =>
      nodupKeysB_merge_object_into rest _ (nodupKeysB_mergeStep dmems k vs h)

theorem get_merge_object_into : ∀ (smems dmems : Members) (key : CStr),
    nodupKeysB smems = true →
    get_object_item (merge_object_into dmems smems) key =
      (match get_object_item smems key with
       | some vs => some (mergeEntry (get_object_item dmems key) vs)
       | none => get_object_item dmems key)
  | [], dmems, key, _ => by simp [merge_object_into, get_object_item]
  | (k, vs) :: rest, dmems, key, hnd => by
      simp only [nodupKeysB, Bool.and_eq_true] at hnd
      rw [merge_object_into, get_merge_object_into rest _ key hnd.2]
      by_cases hk : key = k
      · subst hk
        have hrest : get_object_item rest key = none := by
          rcases hv : get_object_item rest key with _ | v
          · rfl
          · rw [hv] at hnd; simp at hnd
        rw [hrest, get_mergeStep]
        simp [get_object_item]
      · have hkk : ¬ k = key := fun hh => hk hh.symm
        rcases hv : get_object_item rest key with _ | v <;>
          simp [get_object_item, hkk, hv, get_mergeStep, hk]

/-! ### json_values_equal under well-formedness -/

theorem membersEqualIn_of_pointwise : ∀ (m m' : Members),
    (∀ kv ∈ m, ∃ w, get_object_item m' kv.1 = some w ∧
      json_values_equal kv.2 w = true) →
    membersEqualIn m m' = true
  | [], _, _ => rfl
  | (k, v) :: rest, m', h => by
      simp only [membersEqualIn, Bool.and_eq_true]
      obtain ⟨w, hw, he⟩ := h (k, v) (List.mem_cons_self _ _)
      refine ⟨by rw [hw]; exact he, ?_⟩
      exact membersEqualIn_of_pointwise rest m'
        (fun kv hkv => h kv (List.mem_cons_of_mem _ hkv))

theorem membersEqualIn_mem : ∀ (m m' : Members) (k : CStr) (v : JsonValue),
    membersEqualIn m m' = true → (k, v) ∈ m →
    ∃ w, get_object_item m' k = some w ∧ json_values_equal v w = true
  | [], _, _, _, _, h => by simp at h
  | (k₀, v₀) :: rest, m', k, v, he, h => by
      simp only [membersEqualIn, Bool.and_eq_true] at he
      rcases List.mem_cons.mp h with h | h
      · simp only [Prod.mk.injEq] at h
        obtain ⟨h₁, h₂⟩ := h
        subst h₁; subst h₂
        have h1 := he.1
        rcases hw : get_object_item m' k with _ | w
        · rw [hw] at h1; simp at h1
        · rw [hw] at h1
          exact ⟨w, rfl, h1⟩
      · exact membersEqualIn_mem rest m' k v he.2 h

theorem equal_obj_elim (ma mb : Members)
    (h : json_values_equal (JsonValue.obj ma) (JsonValue.obj mb) = true)
    (key : CStr) : optEqJ (get_object_item ma key) (get_object_item mb key) := by
  simp only [json_values_equal, Bool.and_eq_true] at h
  rcases hv : get_object_item ma key with _ | v
  · rcases hw : get_object_item mb key with _ | w
    · trivial
    · exfalso
      have hmem := mem_of_get_object_item mb key w hw
      have h2 := h.2
      simp only [keysAllPresent, List.all_eq_true] at h2
      have := h2 (key, w) hmem
      rw [hv] at this
      simp at this
  · obtain ⟨w, hw, he⟩ := membersEqualIn_mem ma mb key v h.1
      (mem_of_get_object_item ma key v hv)
    rw [hw]
    exact he

theorem equal_obj_intro (ma mb : Members) (ha : nodupKeysB ma = true)
    (hb : nodupKeysB mb = true)
    (h : ∀ key, optEqJ (get_object_item ma key) (get_object_item mb key)) :
    json_values_equal (JsonValue.obj ma) (JsonValue.obj mb) = true := by
  simp only [json_values_equal, Bool.and_eq_true]
  constructor
  · apply membersEqualIn_of_pointwise
    intro kv hkv
    obtain ⟨k, v⟩ := kv
    have hv : get_object_item ma k = some v := get_of_mem_nodup ma k v ha hkv
    have hq := h k
    rw [hv] at hq
    rcases hw : get_object_item mb k with _ | w
    · rw [hw] at hq
      exact absurd hq not_false
    · rw [hw] at hq
      exact ⟨w, rfl, hq⟩
  · simp only [keysAllPresent, List.all_eq_true]
    intro p hp
    obtain ⟨k, w⟩ := p
    have hq := h k
    rcases hw : get_object_item mb k with _ | w'
    · have := get_isSome_of_mem mb k w hp
      rw [hw] at this
      simp at this
    · rw [hw] at hq
      rcases hv : get_object_item ma k with _ | v
      · rw [hv] at hq
        exact absurd hq not_false
      · simp [hv]

mutual
/-- json_values_equal is reflexive on well-formed values (duplicate keys
would break this: a second member with the same key is compared against
the first). -/
theorem wf_refl : ∀ v, wfJson v = true → json_values_equal v v = true
  | .null, _ => rfl
  | .bool b, _ => by simp [json_values_equal]
  | .number d, _ => by simp [json_values_equal, decNumEq]
  | .str s, _ => by simp [json_values_equal]
  | .arr items, h => by
      simp only [wfJson] at h
      simp only [json_values_equal, Bool.and_eq_true]
      exact ⟨by simp, wf_refl_list items h⟩
  | .obj mems, h => by
      simp only [wfJson, Bool.and_eq_true] at h
      simp only [json_values_equal, Bool.and_eq_true]
      constructor
      · apply membersEqualIn_of_pointwise
        intro kv hkv
        obtain ⟨k, v⟩ := kv
        exact ⟨v, get_of_mem_nodup mems k v h.1 hkv, wf_refl_mems mems h.2 (k, v) hkv⟩
      · simp only [keysAllPresent, List.all_eq_true]
        intro p hp
        obtain ⟨k, v⟩ := p
        simp [get_isSome_of_mem mems k v hp]

theorem wf_refl_list : ∀ l, wfList l = true → arrayItemsEqual l l = true
  | [], _ => rfl
  | v :: rest, h => by
      simp only [wfList, Bool.and_eq_true] at h
      simp only [arrayItemsEqual, Bool.and_eq_true]
      exact ⟨wf_refl v h.1, wf_refl_list rest h.2⟩

theorem wf_refl_mems : ∀ m, wfMems m = true →
    ∀ kv ∈ m, json_values_equal kv.2 kv.2 = true
  | [], _, kv, h => by simp at h
  | (k, v) :: rest, hwf, kv, hkv => by
      simp only [wfMems, Bool.and_eq_true] at hwf
      rcases List.mem_cons.mp hkv with h | h
      · subst h
        exact wf_refl v hwf.1
      · exact wf_refl_mems rest hwf.2 kv h
end

mutual
/-- json_values_equal is symmetric on well-formed values (the C function is
asymmetric in general: the second loop of the object case checks only key
presence, and duplicate keys break symmetry). -/
theorem wf_symm : ∀ a b, wfJson a = true → wfJson b = true →
    json_values_equal a b = true → json_values_equal b a = true
  | .null, .null, _, _, _ => rfl
  | .bool x, .bool y, _, _, h => by
      simp only [json_values_equal, beq_iff_eq] at h ⊢
      exact h.symm
  | .number d, .number e, _, _, h => by
      simp only [json_values_equal, decNumEq, beq_iff_eq] at h ⊢
      rw [min_comm e.exp d.exp]
      exact h.symm
  | .str s, .str t, _, _, h => by
      simp only [json_values_equal, beq_iff_eq] at h ⊢
      exact h.symm
  | .arr l₁, .arr l₂, h₁, h₂, h => by
      simp only [wfJson] at h₁ h₂
      simp only [json_values_equal, Bool.and_eq_true, beq_iff_eq] at h ⊢
      exact ⟨h.1.symm, wf_symm_list l₁ l₂ h.1 h₁ h₂ h.2⟩
  | .obj ma, .obj mb, h₁, h₂, h => by
      simp only [wfJson, Bool.and_eq_true] at h₁ h₂
      simp only [json_values_equal, Bool.and_eq_true] at h ⊢
      constructor
      · apply membersEqualIn_of_pointwise
        intro kv hkv
        obtain ⟨k, w⟩ := kv
        have h2 := h.2
        simp only [keysAllPresent, List.all_eq_true] at h2
        have hsome := h2 (k, w) hkv
        rcases hv : get_object_item ma k with _ | v
        · rw [hv] at hsome; simp at hsome
        · have hmemv : (k, v) ∈ ma := mem_of_get_object_item ma k v hv
          have hwmb : get_object_item mb k = some w := get_of_mem_nodup mb k w h₂.1 hkv
          exact ⟨v, rfl, wf_symm_mems ma mb h₁.2 h₂.2 h.1 (k, v) hmemv w hwmb⟩
      · simp only [keysAllPresent, List.all_eq_true]
        intro p hp
        obtain ⟨k, v⟩ := p
        obtain ⟨w, hw, _⟩ := membersEqualIn_mem ma mb k v h.1 hp
        simp [hw]
  | .null, .bool _, _, _, h => by simp [json_values_equal] at h
  | .null, .number _, _, _, h => by simp [json_values_equal] at h
  | .null, .str _, _, _, h => by simp [json_values_equal] at h
  | .null, .arr _, _, _, h => by simp [json_values_equal] at h
  | .null, .obj _, _, _, h => by simp [json_values_equal] at h
  | .bool _, .null, _, _, h => by simp [json_values_equal] at h
  | .bool _, .number _, _, _, h => by simp [json_values_equal] at h
  | .bool _, .str _, _, _, h => by simp [json_values_equal] at h
  | .bool _, .arr _, _, _, h => by simp [json_values_equal] at h
  | .bool _, .obj _, _, _, h => by simp [json_values_equal] at h
  | .number _, .null, _, _, h => by simp [json_values_equal] at h
  | .number _, .bool _, _, _, h => by simp [json_values_equal] at h
  | .number _, .str _, _, _, h => by simp [json_values_equal] at h
  | .number _, .arr _, _, _, h => by simp [json_values_equal] at h
  | .number _, .obj _, _, _, h => by simp [json_values_equal] at h
  | .str _, .null, _, _, h => by simp [json_values_equal] at h
  | .str _, .bool _, _, _, h => by simp [json_values_equal] at h
  | .str _, .number _, _, _, h => by simp [json_values_equal] at h
  | .str _, .arr _, _, _, h => by simp [json_values_equal] at h
  | .str _, .obj _, _, _, h => by simp [json_values_equal] at h
  | .arr _, .null, _, _, h => by simp [json_values_equal] at h
  | .arr _, .bool _, _, _, h => by simp [json_values_equal] at h
  | .arr _, .number _, _, _, h => by simp [json_values_equal] at h
  | .arr _, .str _, _, _, h => by simp [json_values_equal] at h
  | .arr _, .obj _, _, _, h => by simp [json_values_equal] at h
  | .obj _, .null, _, _, h => by simp [json_values_equal] at h
  | .obj _, .bool _, _, _, h => by simp [json_values_equal] at h
  | .obj _, .number _, _, _, h => by simp [json_values_equal] at h
  | .obj _, .str _, _, _, h => by simp [json_values_equal] at h
  | .obj _, .arr _, _, _, h => by simp [json_values_equal] at h

theorem wf_symm_list : ∀ l₁ l₂, l₁.length = l₂.length → wfList l₁ = true →
    wfList l₂ = true → arrayItemsEqual l₁ l₂ = true → arrayItemsEqual l₂ l₁ = true
  | [], [], _, _, _, _ => rfl
  | [], _ :: _, hlen, _, _, _ => by simp at hlen
  | _ :: _, [], hlen, _, _, _ => by simp at hlen
  | a :: as, b :: bs, hlen, h₁, h₂, h => by
      simp only [wfList, Bool.and_eq_true] at h₁ h₂
      simp only [arrayItemsEqual, Bool.and_eq_true] at h ⊢
      simp only [List.length_cons, Nat.succ_inj] at hlen
      exact ⟨wf_symm a b h₁.1 h₂.1 h.1, wf_symm_list as bs hlen h₁.2 h₂.2 h.2⟩

theorem wf_symm_mems : ∀ (ma mb : Members), wfMems ma = true → wfMems mb = true →
    membersEqualIn ma mb = true →
    ∀ kv ∈ ma, ∀ w, get_object_item mb kv.1 = some w →
      json_values_equal w kv.2 = true
  | [], _, _, _, _, kv, hkv, _, _ => by simp at hkv
  | (k, v) :: rest, mb, hwa, hwb, he, kv, hkv, w, hw => by
      simp only [wfMems, Bool.and_eq_true] at hwa
      simp only [membersEqualIn, Bool.and_eq_true] at he
      rcases List.mem_cons.mp hkv with h | h
      · subst h
        have h1 := he.1
        rw [hw] at h1
        have hwfw : wfJson w = true :=
          wfMems_mem mb k w hwb (mem_of_get_object_item mb k w hw)
        exact wf_symm v w hwa.1 hwfw h1
      · exact wf_symm_mems rest mb hwa.2 hwb he.2 kv h w hw
end

/-! ### The diff-merge round trip (claim C5) -/

theorem c5_step_nonobjpair (mc oc : JsonValue)
    (hnb : ∀ (a b : Members), ¬(mc = JsonValue.obj a ∧ oc = JsonValue.obj b))
    (hwfmc : wfJson mc = true) (hwfoc : wfJson oc = true) :
    optEqJ
      (match diffEntry mc (some oc) with
       | some vs => some (mergeEntry (some oc) vs)
       | none => some oc)
      (some mc) := by
  have hrow : diffEntry mc (some oc) =
      if json_values_equal mc oc then none else some mc := by
    rcases mc with _ | b | d | s | items | mmc <;>
      rcases oc with _ | b' | d' | s' | items' | omc <;>
      first
      | rfl
      | exact absurd ⟨rfl, rfl⟩ (hnb _ _)
  have hmerge : mergeEntry (some oc) mc = mc := by
    rcases mc with _ | b | d | s | items | mmc <;>
      rcases oc with _ | b' | d' | s' | items' | omc <;>
      first
      | rfl
      | exact absurd ⟨rfl, rfl⟩ (hnb _ _)
  rw [hrow]
  split_ifs with he
  · exact wf_symm mc oc hwfmc hwfoc he
  · show json_values_equal (mergeEntry (some oc) mc) mc = true
    rw [hmerge]
    exact wf_refl mc hwfmc

theorem merge_diff_aux : ∀ (n : Nat) (mm om : Members), sizeOf mm ≤ n →
    nodupKeysB mm = true → wfMems mm = true →
    nodupKeysB om = true → wfMems om = true →
    keysAllPresent om mm = true → coversMems mm om = true →
    json_values_equal
      (JsonValue.obj (merge_object_into om (diff_objects_go mm om [])))
      (JsonValue.obj mm) = true := by
  intro n
  induction n using Nat.strong_induction_on with
  | _ n ih =>
    intro mm om hsz hndm hwfm hndo hwfo hcov hcm
    have hnd_diff : nodupKeysB (diff_objects_go mm om []) = true :=
      nodupKeysB_diff_objects_go mm om [] rfl
    apply equal_obj_intro _ _ (nodupKeysB_merge_object_into _ om hndo) hndm
    intro key
    rw [get_merge_object_into (diff_objects_go mm om []) om key hnd_diff]
    rw [get_diff_objects_go mm om [] key hndm (fun _ _ => rfl)]
    rcases hmc : get_object_item mm key with _ | mc
    · rcases hoc : get_object_item om key with _ | oc
      · exact trivial
      · exfalso
        simp only [keysAllPresent, List.all_eq_true] at hcov
        have := hcov (key, oc) (mem_of_get_object_item om key oc hoc)
        rw [hmc] at this
        simp at this
    · have hmem := mem_of_get_object_item mm key mc hmc
      have hwfmc := wfMems_mem mm key mc hwfm hmem
      rcases hoc : get_object_item om key with _ | oc
      · exact wf_refl mc hwfmc
      · have hwfoc := wfMems_mem om key oc hwfo (mem_of_get_object_item om key oc hoc)
        have hcv := coversMems_mem mm om key mc oc hcm hmem hoc
        rcases mc with _ | b | d | s | items | mmc
        · exact c5_step_nonobjpair _ _ (fun a b hab => JsonValue.noConfusion hab.1) hwfmc hwfoc
        · exact c5_step_nonobjpair _ _ (fun a b hab => JsonValue.noConfusion hab.1) hwfmc hwfoc
        · exact c5_step_nonobjpair _ _ (fun a b hab => JsonValue.noConfusion hab.1) hwfmc hwfoc
        · exact c5_step_nonobjpair _ _ (fun a b hab => JsonValue.noConfusion hab.1) hwfmc hwfoc
        · exact c5_step_nonobjpair _ _ (fun a b hab => JsonValue.noConfusion hab.1) hwfmc hwfoc
        · rcases oc with _ | b' | d' | s' | items' | omc
          · exact c5_step_nonobjpair _ _ (fun a b hab => JsonValue.noConfusion hab.2) hwfmc hwfoc
          · exact c5_step_nonobjpair _ _ (fun a b hab => JsonValue.noConfusion hab.2) hwfmc hwfoc
          · exact c5_step_nonobjpair _ _ (fun a b hab => JsonValue.noConfusion hab.2) hwfmc hwfoc
          · exact c5_step_nonobjpair _ _ (fun a b hab => JsonValue.noConfusion hab.2) hwfmc hwfoc
          · exact c5_step_nonobjpair _ _ (fun a b hab => JsonValue.noConfusion hab.2) hwfmc hwfoc
          · -- both objects: recurse through the strong induction hypothesis
            have hwf' : nodupKeysB mmc = true ∧ wfMems mmc = true := by
              simpa only [wfJson, Bool.and_eq_true] using hwfmc
            have hwo' : nodupKeysB omc = true ∧ wfMems omc = true := by
              simpa only [wfJson, Bool.and_eq_true] using hwfoc
            have hcv' : keysAllPresent omc mmc = true ∧ coversMems mmc omc = true := by
              simpa only [coversB, Bool.and_eq_true] using hcv
            have hszc : sizeOf mmc < n := by
              have h1 := List.sizeOf_lt_of_mem hmem
              simp only [Prod.mk.sizeOf_spec, JsonValue.obj.sizeOf_spec] at h1
              omega
            have IH := ih (sizeOf mmc) hszc mmc omc le_rfl hwf'.1 hwf'.2
              hwo'.1 hwo'.2 hcv'.1 hcv'.2
            change optEqJ
              (match diffEntry (JsonValue.obj mmc) (some (JsonValue.obj omc)) with
               | some vs => some (mergeEntry (some (JsonValue.obj omc)) vs)
               | none => some (JsonValue.obj omc))
              (some (JsonValue.obj mmc))
            by_cases hch : diff_objects_go mmc omc [] = []
            · have hde : diffEntry (JsonValue.obj mmc) (some (JsonValue.obj omc)) =
                  none := by
                simp [diffEntry, hch]
              rw [hde]
              rw [hch] at IH
              exact IH
            · have hde : diffEntry (JsonValue.obj mmc) (some (JsonValue.obj omc)) =
                  some (JsonValue.obj (diff_objects_go mmc omc [])) := by
                simp [diffEntry, hch]
              rw [hde]
              exact IH

/-- C5 counterexample: with modified = original = null (well-formed values),
diff_json yields the empty object and merge_json_into replaces the non-object
dest with it, so the claimed law
equal(merge_into(clone(original), diff(modified, original)), modified)
evaluates to FALSE: the merge result is the empty object, not null. -/
theorem c5_diff_merge_counterexample :
    json_values_equal
      (merge_json_into (clone_json_value JsonValue.null)
        (diff_json JsonValue.null JsonValue.null))
      JsonValue.null = false := rfl

/-- C5 (amended): the diff+merge law holds when modified and original are
both OBJECTS satisfying recursive key coverage (every key of original
appears in modified, at the top and wherever both same-key children are
objects; this is forced because diff_objects records no deletions and
merge_object_into retains dest-only members) - on well-formed values
(duplicate-free keys throughout). -/
theorem c5_diff_merge_restores_modified (mm om : Members)
    (hm : wfJson (JsonValue.obj mm) = true) (ho : wfJson (JsonValue.obj om) = true)
    (hcov : coversB (JsonValue.obj mm) (JsonValue.obj om) = true) :
    json_values_equal
      (merge_json_into (clone_json_value (JsonValue.obj om))
        (diff_json (JsonValue.obj mm) (JsonValue.obj om)))
      (JsonValue.obj mm) = true := by
  simp only [wfJson, Bool.and_eq_true] at hm ho
  simp only [coversB, Bool.and_eq_true] at hcov
  exact merge_diff_aux (sizeOf mm) mm om le_rfl hm.1 hm.2 ho.1 ho.2 hcov.1 hcov.2

/-- Witness for the amended C5 at concrete values: original has key a
mapping to 1, modified changes a to 2, adds b, and nests an object under c. -/
theorem c5_diff_merge_witness :
    json_values_equal
      (merge_json_into
        (clone_json_value (JsonValue.obj
          [([97], JsonValue.number ⟨1, 0⟩),
           ([99], JsonValue.obj [([100], JsonValue.bool true)])]))
        (diff_json
          (JsonValue.obj
            [([97], JsonValue.number ⟨2, 0⟩), ([98], JsonValue.null),
             ([99], JsonValue.obj [([100], JsonValue.bool false)])])
          (JsonValue.obj
            [([97], JsonValue.number ⟨1, 0⟩),
             ([99], JsonValue.obj [([100], JsonValue.bool true)])])))
      (JsonValue.obj
        [([97], JsonValue.number ⟨2, 0⟩), ([98], JsonValue.null),
         ([99], JsonValue.obj [([100], JsonValue.bool false)])]) = true :=
  c5_diff_merge_restores_modified
    [([97], JsonValue.number ⟨2, 0⟩), ([98], JsonValue.null),
     ([99], JsonValue.obj [([100], JsonValue.bool false)])]
    [([97], JsonValue.number ⟨1, 0⟩),
     ([99], JsonValue.obj [([100], JsonValue.bool true)])]
    (by decide) (by decide) (by decide)

/-! ## Dot-path accessor (json_config.c get_nested_item / set_nested_item) -/

/-- strtok(key, ".") splitting: runs of '.' (46) collapse and leading or
trailing delimiters produce no token, i.e. empty pieces are dropped. -/
def dotSplit (s : CStr) : List CStr := (s.splitOn 46).filter (fun t => t ≠ [])

/-- Value of a decimal digit string. -/
def digitsToNat (l : CStr) : Nat := l.foldl (fun a c => a * 10 + (c - 48)) 0

/-- `strtol(tok, &endptr, 10)` together with the callers' `*endptr == '\0'`
check: optional C whitespace, optional sign, at least one digit, nothing
after.  LONG_MAX clamping is not modelled (all indices evaluated are small). -/
def strtolFull (s : CStr) : Option Int :=
  let s1 := s.dropWhile isspaceB
  let signAndRest : Int × CStr :=
    match s1 with
    | 43 :: rest => (1, rest)
    | 45 :: rest => (-1, rest)
    | _ => (1, s1)
  let digits := signAndRest.2.takeWhile isdigitB
  let rest := signAndRest.2.dropWhile isdigitB
  if digits = [] then none
  else if rest ≠ [] then none
  else some (signAndRest.1 * digitsToNat digits)

/-- Longest-valid-prefix decimal float parse, the model of `strtod`:
optional whitespace and sign, digits with at most one point, then an
exponent part only when it has at least one digit.  Returns the exactly
represented value (0 when no conversion) and the unconsumed suffix.
C's hexadecimal, infinity and nan forms are not modelled. -/
def strtodPrefix (s : CStr) : Dec × CStr :=
  let s1 := s.dropWhile isspaceB
  let sign : Int := match s1 with | 45 :: _ => -1 | _ => 1
  let s2 := match s1 with | 43 :: rest => rest | 45 :: rest => rest | _ => s1
  let ip := s2.takeWhile isdigitB
  let s3 := s2.dropWhile isdigitB
  let fpAndRest : CStr × CStr :=
    match s3 with
    | 46 :: rest => (rest.takeWhile isdigitB, rest.dropWhile isdigitB)
    | _ => ([], s3)
  let fp := fpAndRest.1
  let s4 := fpAndRest.2
  if ip = [] ∧ fp = [] then (⟨0, 0⟩, s)
  else
    let mant : Int := sign * (digitsToNat (ip ++ fp) : Int)
    let exp0 : Int := -(fp.length : Int)
    let expAndRest : Int × CStr :=
      match s4 with
      | c :: rest =>
          if c = 101 ∨ c = 69 then
            let esign : Int := match rest with | 45 :: _ => -1 | _ => 1
            let rest2 := match rest with | 43 :: r => r | 45 :: r => r | _ => rest
            let eds := rest2.takeWhile isdigitB
            if eds = [] then (0, s4)
            else (esign * (digitsToNat eds : Int), rest2.dropWhile isdigitB)
          else (0, s4)
      | [] => (0, s4)
    (⟨mant, exp0 + expAndRest.1⟩, expAndRest.2)

/-- Full-string strtod as used by set_nested_item's literal inference:
`*endptr == '\0' && *value_str != '\0'`. -/
def strtodFull (s : CStr) : Option Dec :=
  let r := strtodPrefix s
  if r.2 = [] ∧ s ≠ [] then some r.1 else none

/-- Literal inference of set_nested_item (json_config.c lines 810-836):
exact true/false/null, then full-string float parse on non-empty strings,
else a verbatim string. -/
def inferLiteral (s : CStr) : JsonValue :=
  if s = [116, 114, 117, 101] then JsonValue.bool true
  else if s = [102, 97, 108, 115, 101] then JsonValue.bool false
  else if s = [110, 117, 108, 108] then JsonValue.null
  else
    match strtodFull s with
    | some d => JsonValue.number d
    | none => JsonValue.str s

/-- The walk-and-set loop of set_nested_item (json_config.c lines 756-898),
with the C's in-place heap mutation rendered as rebuilding: the returned
value is the (possibly partially) updated subtree, and the Bool is the
return code - on failure the mutations already made persist, exactly as in
the C.  Intermediate missing object members become empty objects (prepended
by add_to_object); intermediate missing array indices extend the array with
empty objects up to and including the index; the final segment stores the
inferred literal (arrays extend with nulls there). -/
def setNestedGo : JsonValue → List CStr → CStr → Bool × JsonValue
  | current, [], _ => (false, current)
  | current, [last], lit =>
      match current with
      | JsonValue.obj mems =>
          (true, JsonValue.obj (add_to_object mems last (inferLiteral lit)))
      | JsonValue.arr items =>
          (match strtolFull last with
           | none => (false, JsonValue.arr items)
           | some i =>
              if i < 0 then (false, JsonValue.arr items)
              else
                let items' := items ++
                  List.replicate (i.toNat + 1 - items.length) JsonValue.null
                (true, JsonValue.arr (items'.set i.toNat (inferLiteral lit))))
      | other => (false, other)
  | current, seg :: rest₁ :: rest₂, lit =>
      match current with
      | JsonValue.obj mems =>
          (match get_object_item mems seg with
           | some child =>
              let r := setNestedGo child (rest₁ :: rest₂) lit
              (r.1, JsonValue.obj (replaceFirstValue mems seg r.2))
           | none =>
              let r := setNestedGo (JsonValue.obj []) (rest₁ :: rest₂) lit
              (r.1, JsonValue.obj (add_to_object mems seg r.2)))
      | JsonValue.arr items =>
          (match strtolFull seg with
           | none => (false, JsonValue.arr items)
           | some i =>
              if i < 0 then (false, JsonValue.arr items)
              else
                let items' := items ++
                  List.replicate (i.toNat + 1 - items.length) (JsonValue.obj [])
                match items'.get? i.toNat with
                | some child =>
                    let r := setNestedGo child (rest₁ :: rest₂) lit
                    (r.1, JsonValue.arr (items'.set i.toNat r.2))
                | none => (false, JsonValue.arr items'))
      | other => (false, other)

/-- `set_nested_item`: split the key on dots (at most 256 parts are
consumed; further tokens are silently ignored by the C loop bound), fail on
an empty part list, then walk. -/
def set_nested_item (root : JsonValue) (key lit : CStr) : Bool × JsonValue :=
  let parts := (dotSplit key).take 256
  if parts = [] then (false, root)
  else setNestedGo root parts lit

/-- `get_nested_item` (json_config.c lines 682-719): walk the dot-path;
objects look members up, arrays need a full-token in-range index, scalars
end the walk with NULL. -/
def getNestedGo : JsonValue → List CStr → Option JsonValue
  | current, [] => some current
  | current, seg :: rest =>
      match current with
      | JsonValue.obj mems =>
          (match get_object_item mems seg with
           | some child => getNestedGo child rest
           | none => none)
      | JsonValue.arr items =>
          (match strtolFull seg with
           | none => none
           | some i =>
              if i < 0 ∨ get_array_size items ≤ i.toNat then none
              else
                match get_array_item items i with
                | some child => getNestedGo child rest
                | none => none)
      | _ => none

def get_nested_item (root : JsonValue) (key : CStr) : Option JsonValue :=
  getNestedGo root (dotSplit key)

/-- The tree produced by walking fresh object segments: a chain of
single-member objects ending in the inferred literal. -/
def nestedSingleton : List CStr → CStr → JsonValue
  | [], lit => inferLiteral lit
  | [k], lit => JsonValue.obj [(k, inferLiteral lit)]
  | k :: rest₁ :: rest₂, lit => JsonValue.obj [(k, nestedSingleton (rest₁ :: rest₂) lit)]

/-! ## Claim C8: set_nested auto-creation -/

theorem setNestedGo_fresh_chain : ∀ (ks : List CStr) (lit : CStr), ks ≠ [] →
    setNestedGo (JsonValue.obj []) ks lit = (true, nestedSingleton ks lit)
  | [], _, h => absurd rfl h
  | [k], lit, _ => by
      simp [setNestedGo, nestedSingleton, add_to_object, get_object_item]
  | k :: r₁ :: r₂, lit, _ => by
      have ih := setNestedGo_fresh_chain (r₁ :: r₂) lit (by simp)
      simp [setNestedGo, nestedSingleton, get_object_item, ih, add_to_object]

theorem replicate_set_last (n : Nat) (a x : JsonValue) :
    (List.replicate (n + 1) a).set n x = List.replicate n a ++ [x] := by
  induction n with
  | zero => rfl
  | succ n ih =>
      rw [List.replicate_succ]
      simp only [List.set_cons_succ]
      rw [ih, List.replicate_succ]
      rfl

theorem pad_get (items : List JsonValue) (i : Nat) (x : JsonValue)
    (h : items.length ≤ i) :
    (items ++ List.replicate (i + 1 - items.length) x).get? i = some x := by
  rw [List.get?_append_right h]
  rw [List.get?_eq_getElem?, List.getElem?_replicate]
  rw [if_pos (by omega)]

theorem pad_set (items : List JsonValue) (i : Nat) (x v : JsonValue)
    (h : items.length ≤ i) :
    (items ++ List.replicate (i + 1 - items.length) x).set i v =
      items ++ List.replicate (i - items.length) x ++ [v] := by
  rw [List.set_append_right _ _ h]
  have heq : i + 1 - items.length = (i - items.length) + 1 := by omega
  rw [heq, replicate_set_last]
  exact (List.append_assoc _ _ _).symm

/-- C8: during the walk of set_nested_item over every segment but the last,
(a) a missing object member is auto-created as an empty object: on an empty
object root, any non-empty dot-path (each piece as split by strtok, at most
256) builds the chain of fresh single-member objects ending in the inferred
literal, and the call succeeds; (b) a missing array index extends the array
with empty objects up to and including that index: on an array root whose
length is at most i, path "i.k" extends the array with empty objects up to
index i and sets k inside the object created there. -/
theorem c8_set_nested_auto_creation :
    (∀ (key lit : CStr) (ks : List CStr), dotSplit key = ks → ks ≠ [] →
      ks.length ≤ 256 →
      set_nested_item (JsonValue.obj []) key lit = (true, nestedSingleton ks lit)) ∧
    (∀ (key lit seg k : CStr) (i : Int) (items : List JsonValue),
      dotSplit key = [seg, k] → strtolFull seg = some i → 0 ≤ i →
      items.length ≤ i.toNat →
      set_nested_item (JsonValue.arr items) key lit =
        (true, JsonValue.arr (items ++
          List.replicate (i.toNat - items.length) (JsonValue.obj []) ++
          [JsonValue.obj [(k, inferLiteral lit)]]))) := by
  constructor
  · intro key lit ks hsplit hne hlen
    unfold set_nested_item
    rw [hsplit, List.take_of_length_le hlen, if_neg hne]
    exact setNestedGo_fresh_chain ks lit hne
  · intro key lit seg k i items hsplit hparse hnonneg hlen
    unfold set_nested_item
    rw [hsplit]
    have h2 : ¬ (([seg, k] : List CStr).take 256 = []) := by simp
    rw [if_neg h2]
    show setNestedGo (JsonValue.arr items) [seg, k] lit = _
    rw [setNestedGo, hparse]
    show (if i < 0 then (false, JsonValue.arr items)
      else
        let items' := items ++
          List.replicate (i.toNat + 1 - items.length) (JsonValue.obj [])
        match items'.get? i.toNat with
        | some child =>
            let r := setNestedGo child [k] lit
            (r.1, JsonValue.arr (items'.set i.toNat r.2))
        | none => (false, JsonValue.arr items')) = _
    rw [if_neg (by omega : ¬ i < 0)]
    show (match (items ++
        List.replicate (i.toNat + 1 - items.length) (JsonValue.obj [])).get?
          i.toNat with
      | some child =>
          let r := setNestedGo child [k] lit
          (r.1, JsonValue.arr ((items ++
            List.replicate (i.toNat + 1 - items.length)
              (JsonValue.obj [])).set i.toNat r.2))
      | none => (false, JsonValue.arr (items ++
          List.replicate (i.toNat + 1 - items.length) (JsonValue.obj [])))) = _
    rw [pad_get items i.toNat (JsonValue.obj []) hlen]
    show (true, JsonValue.arr ((items ++
        List.replicate (i.toNat + 1 - items.length) (JsonValue.obj [])).set
          i.toNat (setNestedGo (JsonValue.obj []) [k] lit).2)) = _
    rw [setNestedGo_fresh_chain [k] lit (by simp)]
    rw [pad_set items i.toNat (JsonValue.obj []) _ hlen]
    rfl

/-- Witness for C8 at concrete inputs: path "x.y" on an empty object, and
path "3.k" on the one-element array [null]. -/
theorem c8_set_nested_auto_creation_witness :
    set_nested_item (JsonValue.obj []) [120, 46, 121] [104, 105] =
      (true, nestedSingleton [[120], [121]] [104, 105]) ∧
    set_nested_item (JsonValue.arr [JsonValue.null]) [51, 46, 107] [104, 105] =
      (true, JsonValue.arr ([JsonValue.null] ++
        List.replicate ((3 : Int).toNat - 1) (JsonValue.obj []) ++
        [JsonValue.obj [([107], inferLiteral [104, 105])]])) :=
  ⟨c8_set_nested_auto_creation.1 [120, 46, 121] [104, 105] [[120], [121]]
      (by decide) (by decide) (by decide),
   c8_set_nested_auto_creation.2 [51, 46, 107] [104, 105] [51] [107] 3 [JsonValue.null]
      (by decide) (by decide) (by decide) (by decide)⟩

/-! ## JSONPath evaluator (jsonpath.c) -/

/-- `skip_ws` over the remaining input (scanner state is the unconsumed
suffix; the scanner only moves forward except for the filter re-scan,
which is modelled by keeping the saved suffix). -/
def skip_ws (s : CStr) : CStr := s.dropWhile isspaceB

/-- `match(sc, lit)`: consume lit when it is a prefix. -/
def matchLit (lit s : CStr) : Option CStr :=
  if lit.isPrefixOf s then some (s.drop lit.length) else none

/-- `parse_identifier`: [A-Za-z_][A-Za-z0-9_]*. -/
def parse_identifier (s : CStr) : Option (CStr × CStr) :=
  match s with
  | c :: _ =>
      if isalphaB c || c == 95 then
        some (s.takeWhile (fun d => isalnumB d || d == 95),
              s.dropWhile (fun d => isalnumB d || d == 95))
      else none
  | [] => none

/-- Body loop of `parse_quoted`: collect bytes until the closing quote; a
backslash makes the following byte literal; end of input stops the loop. -/
def pqLoop (q : Nat) : CStr → CStr × CStr
  | [] => ([], [])
  | [c] => if c = q then ([], []) else if c = 92 then ([], []) else ([c], [])
  | c :: c₂ :: rest =>
      if c = q then ([], c₂ :: rest)
      else if c = 92 then
        let r := pqLoop q rest
        (c₂ :: r.1, r.2)
      else
        let r := pqLoop q (c₂ :: rest)
        (c :: r.1, r.2)

/-- `parse_quoted` (jsonpath.c lines 77-80): consume the quote character
(any first byte is consumed), collect until the matching quote.  The C
string builder starts NULL and is returned as-is, so an empty quoted
string - where no byte was ever appended - yields NULL, i.e. a parse
failure. -/
def parse_quoted : CStr → Option CStr × CStr
  | [] => (none, [])
  | q :: rest =>
      if q = 39 ∨ q = 34 then
        let r := pqLoop q rest
        (if r.1 = [] then none else some r.1, r.2)
      else (none, rest)

/-- `parse_int` (jsonpath.c lines 83-86): optional '-', at least one digit,
clamped at 2147483647.  On failure the sign (if any) stays consumed. -/
def parse_int (s : CStr) : Option Int × CStr :=
  let signAndRest : Int × CStr :=
    match s with
    | 45 :: rest => (-1, rest)
    | _ => (1, s)
  match signAndRest.2 with
  | c :: _ =>
      if isdigitB c then
        (some (signAndRest.1 *
           min (digitsToNat (signAndRest.2.takeWhile isdigitB) : Int) 2147483647),
         signAndRest.2.dropWhile isdigitB)
      else (none, signAndRest.2)
  | [] => (none, signAndRest.2)

/-- The C test `name && *name && (isalpha(name[0]) || name[0]=='_')`: only
the FIRST byte is inspected. -/
def identStartB : CStr → Bool
  | [] => false
  | c :: _ => isalphaB c || c == 95

/-- `path_append_prop` (jsonpath.c lines 49-55): dot form when the first
byte is a letter or underscore, bracket-quoted form otherwise. -/
def path_append_prop (base name : CStr) : CStr :=
  if identStartB name then base ++ [46] ++ name
  else base ++ [91, 39] ++ name ++ [39, 93]

/-- `path_append_index`: snprintf "[%d]". -/
def path_append_index (base : CStr) (idx : Int) : CStr :=
  base ++ [91] ++ intDecimal idx ++ [93]

/-- One (node, path) working-set entry. -/
abbrev NodeRef := JsonValue × CStr

mutual
/-- `collect_descendants` (jsonpath.c lines 59-70): pre-order, every proper
descendant with its path. -/
def collect_descendants : JsonValue → CStr → List NodeRef
  | JsonValue.obj mems, path => cdMems mems path
  | JsonValue.arr items, path => cdItems items path 0
  | _, _ => []

def cdMems : Members → CStr → List NodeRef
  | [], _ => []
  | (k, v) :: rest, path =>
      (v, path_append_prop path k) ::
        (collect_descendants v (path_append_prop path k) ++ cdMems rest path)

def cdItems : List JsonValue → CStr → Int → List NodeRef
  | [], _, _ => []
  | v :: rest, path, i =>
      (v, path_append_index path i) ::
        (collect_descendants v (path_append_index path i) ++ cdItems rest path (i + 1))
end

/-- `apply_child_name` (jsonpath.c lines 89-95). -/
def apply_child_name (cur : List NodeRef) (name : CStr) : List NodeRef :=
  cur.flatMap (fun nv =>
    match nv.1 with
    | JsonValue.obj mems =>
        (match get_object_item mems name with
         | some c => [(c, path_append_prop nv.2 name)]
         | none => [])
    | _ => [])

/-- `apply_wildcard` (jsonpath.c lines 96-103). -/
def apply_wildcard (cur : List NodeRef) : List NodeRef :=
  cur.flatMap (fun nv =>
    match nv.1 with
    | JsonValue.obj mems => mems.map (fun kv => (kv.2, path_append_prop nv.2 kv.1))
    | JsonValue.arr items =>
        items.enum.map (fun p => (p.2, path_append_index nv.2 (p.1 : Int)))
    | _ => [])

/-- The six comparison operators of the filter sublanguage. -/
inductive CmpOp where
  | opEq
  | opNe
  | opGt
  | opGe
  | opLt
  | opLe
  deriving DecidableEq

/-- Three-way strcmp (only its sign is ever used). -/
def strcmp3 : CStr → CStr → Int
  | [], [] => 0
  | [], _ :: _ => -1
  | _ :: _, [] => 1
  | a :: as, b :: bs => if a < b then -1 else if b < a then 1 else strcmp3 as bs

def opTest (c : Int) : CmpOp → Bool
  | .opEq => c == 0
  | .opNe => c != 0
  | .opGt => c > 0
  | .opGe => c ≥ 0
  | .opLt => c < 0
  | .opLe => c ≤ 0

/-- Whether a value is JSON null (the `a->type==b->type` test of the null
branch compares type tags only). -/
def isNullB : JsonValue → Bool
  | JsonValue.null => true
  | _ => false

/-- `cmp_values` (jsonpath.c lines 156-168): numbers numerically, strings
by strcmp, booleans by their 0/1 value; when either side is null only ==
and != succeed (comparing type tags); everything else is false. -/
def cmp_values (a b : JsonValue) (op : CmpOp) : Bool :=
  match a, b with
  | JsonValue.number x, JsonValue.number y =>
      opTest (if decNumLt x y then -1 else if decNumLt y x then 1 else 0) op
  | JsonValue.str x, JsonValue.str y => opTest (strcmp3 x y) op
  | JsonValue.bool x, JsonValue.bool y =>
      opTest ((if x then 1 else 0) - (if y then 1 else 0)) op
  | a, b =>
      if isNullB a || isNullB b then
        match op with
        | .opEq => isNullB a == isNullB b
        | .opNe => isNullB a != isNullB b
        | _ => false
      else false

/-- The operator scan of eval_cmp: ==, !=, >=, <=, >, < tried in order. -/
def parse_cmp_op (s : CStr) : Option CmpOp × CStr :=
  match matchLit [61, 61] s with
  | some s1 => (some CmpOp.opEq, s1)
  | none =>
  match matchLit [33, 61] s with
  | some s1 => (some CmpOp.opNe, s1)
  | none =>
  match matchLit [62, 61] s with
  | some s1 => (some CmpOp.opGe, s1)
  | none =>
  match matchLit [60, 61] s with
  | some s1 => (some CmpOp.opLe, s1)
  | none =>
  match matchLit [62] s with
  | some s1 => (some CmpOp.opGt, s1)
  | none =>
  match matchLit [60] s with
  | some s1 => (some CmpOp.opLt, s1)
  | none => (none, s)

/-- Loop of `eval_path_from_at` (jsonpath.c lines 170-183).  `@..` exits the
loop (the recursive-descent-in-filter no-op); a failed name or bracket
returns the current node with the partial consumption the C leaves behind.
NULL propagation: a missing member or a non-container makes cur NULL. -/
def epfaLoop : Nat → Option JsonValue → CStr → Option JsonValue × CStr
  | 0, cur, s => (cur, s)
  | fuel + 1, cur, s =>
      match matchLit [46] s with
      | some s1 =>
          (match matchLit [46] s1 with
           | some s2 => (cur, s2)
           | none =>
              match parse_identifier s1 with
              | none => (cur, s1)
              | some (name, s2) =>
                  let cur' :=
                    match cur with
                    | some (JsonValue.obj mems) => get_object_item mems name
                    | _ => none
                  epfaLoop fuel cur' s2)
      | none =>
          match matchLit [91] s with
          | some s1 =>
              (match s1 with
               | c :: _ =>
                  if c = 39 ∨ c = 34 then
                    match parse_quoted s1 with
                    | (none, s2) => (cur, s2)
                    | (some q, s2) =>
                        let s3 := skip_ws s2
                        (match matchLit [93] s3 with
                         | none => (cur, s3)
                         | some s4 =>
                            let cur' :=
                              match cur with
                              | some (JsonValue.obj mems) => get_object_item mems q
                              | _ => none
                            epfaLoop fuel cur' s4)
                  else
                    match parse_int s1 with
                    | (none, s2) => (cur, s2)
                    | (some idx, s2) =>
                        let s3 := skip_ws s2
                        (match matchLit [93] s3 with
                         | none => (cur, s3)
                         | some s4 =>
                            let cur' :=
                              match cur with
                              | some (JsonValue.arr items) => get_array_item items idx
                              | _ => none
                            epfaLoop fuel cur' s4)
               | [] => (cur, s1))
          | none => (cur, s)

/-- `eval_path_from_at`: run the loop from the context node; a NULL result
becomes a fresh JSON null ("treat missing as null"). -/
def eval_path_from_at (fuel : Nat) (ctx : Option JsonValue) (s : CStr) :
    JsonValue × CStr :=
  let r := epfaLoop fuel ctx (skip_ws s)
  ((match r.1 with
    | none => JsonValue.null
    | some v => v), r.2)

/-- `parse_literal` (jsonpath.c lines 127-135): true/false/null by prefix
match, quoted strings (a NULL from parse_quoted propagates as failure with
its consumption), or a decimal number with optional sign and fraction
(exactly represented; the C computes the same value in a double). -/
def parse_literal (s : CStr) : Option JsonValue × CStr :=
  let s0 := skip_ws s
  match matchLit [116, 114, 117, 101] s0 with
  | some s1 => (some (JsonValue.bool true), s1)
  | none =>
  match matchLit [102, 97, 108, 115, 101] s0 with
  | some s1 => (some (JsonValue.bool false), s1)
  | none =>
  match matchLit [110, 117, 108, 108] s0 with
  | some s1 => (some JsonValue.null, s1)
  | none =>
    match s0 with
    | c :: _ =>
        if c = 39 ∨ c = 34 then
          match parse_quoted s0 with
          | (none, s1) => (none, s1)
          | (some q, s1) => (some (JsonValue.str q), s1)
        else
          let signAndRest : Int × CStr :=
            match s0 with
            | 45 :: r => (-1, r)
            | _ => (1, s0)
          match signAndRest.2 with
          | d :: _ =>
              if isdigitB d then
                let ds := signAndRest.2.takeWhile isdigitB
                let s2 := signAndRest.2.dropWhile isdigitB
                match s2 with
                | 46 :: s3 =>
                    let fs := s3.takeWhile isdigitB
                    ((some (JsonValue.number
                        ⟨signAndRest.1 * (digitsToNat (ds ++ fs) : Int),
                         -(fs.length : Int)⟩)),
                     s3.dropWhile isdigitB)
                | _ =>
                    (some (JsonValue.number ⟨signAndRest.1 * (digitsToNat ds : Int), 0⟩),
                     s2)
              else (none, s0)
          | [] => (none, s0)
    | [] => (none, s0)

/-- `eval_cmp` (jsonpath.c lines 137-152): lhs is an @-path or a literal;
with no operator the truthiness of lhs (bool value; null and a failed
literal are false; everything else true); with an operator, a NULL side
makes the comparison false. -/
def eval_cmp (fuel : Nat) (ctx : Option JsonValue) (s : CStr) : Bool × CStr :=
  let s0 := skip_ws s
  let lhsAndRest : Option JsonValue × CStr :=
    match s0 with
    | 64 :: r =>
        let p := eval_path_from_at fuel ctx r
        (some p.1, p.2)
    | _ => parse_literal s0
  let s2 := skip_ws lhsAndRest.2
  match parse_cmp_op s2 with
  | (none, _) =>
      ((match lhsAndRest.1 with
        | none => false
        | some (JsonValue.bool b) => b
        | some JsonValue.null => false
        | some _ => true), s2)
  | (some op, s3) =>
      let s4 := skip_ws s3
      let rhsAndRest : Option JsonValue × CStr :=
        match s4 with
        | 64 :: r =>
            let p := eval_path_from_at fuel ctx r
            (some p.1, p.2)
        | _ => parse_literal s4
      ((match lhsAndRest.1, rhsAndRest.1 with
        | some a, some b => cmp_values a b op
        | _, _ => false), rhsAndRest.2)

/-- `eval_unary` (jsonpath.c line 120): a chain of `!` then a comparison. -/
def eval_unary : Nat → Option JsonValue → CStr → Bool × CStr
  | 0, _, s => (false, s)
  | fuel + 1, ctx, s =>
      let s0 := skip_ws s
      match matchLit [33] s0 with
      | some s1 =>
          let r := eval_unary fuel ctx s1
          (!r.1, r.2)
      | none => eval_cmp fuel ctx s0

/-- The `while(match("&&"))` loop of eval_and; no short-circuit: the right
operand is always scanned and evaluated. -/
def evalAndLoop : Nat → Option JsonValue → Bool → CStr → Bool × CStr
  | 0, _, v, s => (v, s)
  | fuel + 1, ctx, v, s =>
      match matchLit [38, 38] s with
      | some s1 =>
          let r := eval_unary fuel ctx s1
          evalAndLoop fuel ctx (v && r.1) (skip_ws r.2)
      | none => (v, s)

def eval_and (fuel : Nat) (ctx : Option JsonValue) (s : CStr) : Bool × CStr :=
  let r := eval_unary fuel ctx s
  evalAndLoop fuel ctx r.1 (skip_ws r.2)

def evalOrLoop : Nat → Option JsonValue → Bool → CStr → Bool × CStr
  | 0, _, v, s => (v, s)
  | fuel + 1, ctx, v, s =>
      match matchLit [124, 124] s with
      | some s1 =>
          let r := eval_and fuel ctx s1
          evalOrLoop fuel ctx (v || r.1) (skip_ws r.2)
      | none => (v, s)

def eval_or (fuel : Nat) (ctx : Option JsonValue) (s : CStr) : Bool × CStr :=
  let r := eval_and fuel ctx s
  evalOrLoop fuel ctx r.1 (skip_ws r.2)

/-- `eval_filter_expr`. -/
def eval_filter_expr (fuel : Nat) (ctx : Option JsonValue) (s : CStr) :
    Bool × CStr :=
  eval_or fuel ctx s

/-- Per-element filter application of the `[?(expr)]` subscript
(jsonpath.c lines 203-209): array nodes are filtered element by element
(each element becomes the filter context `@`); any other node is kept or
dropped as a whole with itself as context.  The expression is always
evaluated from the saved position right after the opening parenthesis. -/
def filterNodes (fuel : Nat) (exprStart : CStr) (cur : List NodeRef) :
    List NodeRef :=
  cur.flatMap (fun nv =>
    match nv.1 with
    | JsonValue.arr items =>
        items.enum.filterMap (fun p =>
          if (eval_filter_expr fuel (some p.2) exprStart).1 then
            some (p.2, path_append_index nv.2 (p.1 : Int))
          else none)
    | v => if (eval_filter_expr fuel (some v) exprStart).1 then [(v, nv.2)] else [])

/-- The do-while name-collection loop of `['a','b',...]` (jsonpath.c line
217): no whitespace is skipped before each quoted name; the closing bracket
is required right after the last name. -/
def namesLoop : Nat → CStr → List CStr → Option (List CStr × CStr)
  | 0, _, _ => none
  | fuel + 1, s, acc =>
      match parse_quoted s with
      | (none, _) => none
      | (some q, s1) =>
          let s2 := skip_ws s1
          match matchLit [44] s2 with
          | some s3 => namesLoop fuel s3 (acc ++ [q])
          | none =>
              match matchLit [93] s2 with
              | some s3 => some (acc ++ [q], s3)
              | none => none

/-- The `while(match(","))` loop collecting an index union (jsonpath.c line
237). -/
def idxsLoop : Nat → CStr → List Int → Option (List Int × CStr)
  | 0, _, _ => none
  | fuel + 1, s, acc =>
      match matchLit [44] s with
      | some s1 =>
          (match parse_int s1 with
           | (none, _) => none
           | (some v, s2) => idxsLoop fuel (skip_ws s2) (acc ++ [v]))
      | none =>
          match matchLit [93] s with
          | some s1 => some (acc, s1)
          | none => none

/-- The slice loop `for(idx=s; idx<e; idx+=step)`; `e - s` steps of fuel
always suffice for a positive step. -/
def sliceGo : Nat → Nat → Nat → Nat → List Nat
  | 0, _, _, _ => []
  | fuel + 1, s, e, step => if s < e then s :: sliceGo fuel (s + step) e step else []

def sliceIndices (s e step : Nat) : List Nat := sliceGo (e - s) s e step

/-- Per-node slice application (jsonpath.c line 231): only array nodes
participate; a negative start or a negative explicit end is an error in
strict mode and skips the node in lenient mode; an omitted end means the
array length; the end is clamped to the length; a non-positive step becomes
1. -/
def sliceNodes (strict : Bool) (start e0 : Int) (hasEnd : Bool) (step : Int) :
    List NodeRef → Option (List NodeRef)
  | [] => some []
  | nv :: rest =>
      match nv.1 with
      | JsonValue.arr items =>
          let e : Int := if hasEnd then e0 else (items.length : Int)
          if start < 0 ∨ e < 0 then
            if strict then none else sliceNodes strict start e0 hasEnd step rest
          else
            (sliceNodes strict start e0 hasEnd step rest).map (fun r =>
              ((sliceIndices start.toNat (min e (items.length : Int)).toNat
                  (if step ≤ 0 then 1 else step).toNat).filterMap (fun idx =>
                (items.get? idx).map (fun c =>
                  (c, path_append_index nv.2 (idx : Int))))) ++ r)
      | _ => sliceNodes strict start e0 hasEnd step rest

/-- Per-array-node application of an index union (jsonpath.c line 238,
inner loop over idxs): a negative index is an error in strict mode and is
skipped in lenient mode; an in-range index pushes the element. -/
def unionIdxOne (strict : Bool) (items : List JsonValue) (p : CStr) :
    List Int → Option (List NodeRef)
  | [] => some []
  | id :: more =>
      if id < 0 then
        if strict then none else unionIdxOne strict items p more
      else
        (unionIdxOne strict items p more).map (fun r =>
          (match get_array_item items id with
           | some c => [(c, path_append_index p id)]
           | none => []) ++ r)

def unionIdxNodes (strict : Bool) (idxs : List Int) :
    List NodeRef → Option (List NodeRef)
  | [] => some []
  | nv :: rest =>
      match nv.1 with
      | JsonValue.arr items =>
          (match unionIdxOne strict items nv.2 idxs with
           | none => none
           | some sel => (unionIdxNodes strict idxs rest).map (fun r => sel ++ r))
      | _ => unionIdxNodes strict idxs rest

/-- End/step parsing of a slice, entered right after the first ':'
(jsonpath.c lines 227-229): if the next byte is ']' both are omitted;
otherwise the end is parsed unless the next byte is ':' (a failed end
parse leaves has_end=0, end=0), then an optional ':' introduces the step
(a failed step parse means step 1).  Returns (has_end, end, step, rest). -/
def parseSliceTail (s : CStr) : Bool × Int × Int × CStr :=
  match s with
  | 93 :: _ => (false, 0, 1, s)
  | _ =>
      let ep : Bool × Int × CStr :=
        match s with
        | 58 :: _ => (false, 0, s)
        | _ =>
            match parse_int s with
            | (none, r) => (false, 0, r)
            | (some e, r) => (true, e, r)
      match matchLit [58] ep.2.2 with
      | some r2 =>
          (match parse_int r2 with
           | (none, r3) => (ep.1, ep.2.1, 1, r3)
           | (some st, r3) => (ep.1, ep.2.1, st, r3))
      | none => (ep.1, ep.2.1, 1, ep.2.2)

/-- The index / union / slice tail of `apply_array_subscript` (jsonpath.c
lines 222-239), entered after wildcard, filter and quoted-name checks
failed.  A leading integer (the slice start included) is REQUIRED: its
parse failure is an error. -/
def subscriptIndices (fuel : Nat) (strict : Bool) (cur : List NodeRef)
    (s0 : CStr) : Option (List NodeRef × CStr) :=
  match parse_int s0 with
  | (none, _) => none
  | (some start, s1) =>
      let s2 := skip_ws s1
      match matchLit [58] s2 with
      | some s3 =>
          let p := parseSliceTail s3
          let s4 := skip_ws p.2.2.2
          (match matchLit [93] s4 with
           | none => none
           | some s5 =>
              (sliceNodes strict start p.2.1 p.1 p.2.2.1 cur).map (fun r => (r, s5)))
      | none =>
          match idxsLoop fuel s2 [start] with
          | none => none
          | some (idxs, s3) =>
              (unionIdxNodes strict idxs cur).map (fun r => (r, s3))

/-- `apply_array_subscript` (jsonpath.c lines 186-240), entered right after
the opening '['.  Returns the next working set and the rest of the input,
or none for the error return 0. -/
def apply_array_subscript (fuel : Nat) (strict : Bool) (cur : List NodeRef)
    (s : CStr) : Option (List NodeRef × CStr) :=
  let s0 := skip_ws s
  match matchLit [42] s0 with
  | some s1 =>
      let s2 := skip_ws s1
      (match matchLit [93] s2 with
       | none => none
       | some s3 => some (apply_wildcard cur, s3))
  | none =>
  match matchLit [63] s0 with
  | some s1 =>
      (match matchLit [40] s1 with
       | none => none
       | some s2 =>
          let exprEnd := (eval_filter_expr fuel none s2).2
          let results := filterNodes fuel s2 cur
          let s3 := skip_ws exprEnd
          match matchLit [41] s3 with
          | none => none
          | some s4 =>
              let s5 := skip_ws s4
              (match matchLit [93] s5 with
               | none => none
               | some s6 => some (results, s6)))
  | none =>
  match s0 with
  | c :: _ =>
      if c = 39 ∨ c = 34 then
        match namesLoop fuel s0 [] with
        | none => none
        | some (names, s1) =>
            some (cur.flatMap (fun nv =>
              match nv.1 with
              | JsonValue.obj mems =>
                  names.filterMap (fun q =>
                    (get_object_item mems q).map (fun c =>
                      (c, path_append_prop nv.2 q)))
              | _ => []), s1)
      else subscriptIndices fuel strict cur s0
  | [] => subscriptIndices fuel strict cur s0

/-- The step loop of `eval_steps` (jsonpath.c lines 246-276): at end of
input the current working set is the result; a step is `..` (recursive
descent, followed by *, a bracket, or a required identifier), `.` (wildcard
or identifier), or a bracket subscript; anything else breaks out. -/
def evalStepsLoop : Nat → Bool → List NodeRef → CStr → Option (List NodeRef)
  | 0, _, _, _ => none
  | fuel + 1, strict, cur, s =>
      match s with
      | [] => some cur
      | _ =>
        let s0 := skip_ws s
        match matchLit [46] s0 with
        | some s1 =>
            (match matchLit [46] s1 with
             | some s2 =>
                let desc := cur.flatMap (fun nv => collect_descendants nv.1 nv.2)
                (match matchLit [42] s2 with
                 | some s3 => evalStepsLoop fuel strict (apply_wildcard desc) s3
                 | none =>
                    match matchLit [91] s2 with
                    | some s3 =>
                        (match apply_array_subscript fuel strict desc s3 with
                         | none => none
                         | some (next, s4) => evalStepsLoop fuel strict next s4)
                    | none =>
                        match parse_identifier s2 with
                        | none => none
                        | some (name, s3) =>
                            evalStepsLoop fuel strict (apply_child_name desc name) s3)
             | none =>
                match matchLit [42] s1 with
                | some s2 => evalStepsLoop fuel strict (apply_wildcard cur) s2
                | none =>
                    match parse_identifier s1 with
                    | none => none
                    | some (name, s2) =>
                        evalStepsLoop fuel strict (apply_child_name cur name) s2)
        | none =>
            match matchLit [91] s0 with
            | some s1 =>
                (match apply_array_subscript fuel strict cur s1 with
                 | none => none
                 | some (next, s2) => evalStepsLoop fuel strict next s2)
            | none => some cur

/-- `eval_steps` (jsonpath.c lines 242-284): the working set starts as the
root with path "$"; a leading '$' (after whitespace) is required. -/
def eval_steps (fuel : Nat) (strict : Bool) (doc : JsonValue) (s : CStr) :
    Option (List NodeRef) :=
  match matchLit [36] (skip_ws s) with
  | none => none
  | some s1 => evalStepsLoop fuel strict [(doc, [36])] s1

inductive JsonPathMode where
  | modeValues
  | modePaths
  | modePairs
  deriving DecidableEq

/-- JsonPathOptions (jsonpath.h): output mode, result limit (0 = no
limit), strict error handling. -/
structure JsonPathOptions where
  mode : JsonPathMode
  limit : Int
  strict : Bool
  deriving DecidableEq

/-- JsonPathResults: the retained (value, path) node list after the limit
cut; count = nodes.length, and the mode decides which of the paths/values
arrays are materialised from it (values are clone_json_value copies = the
values themselves). -/
structure JsonPathResults where
  mode : JsonPathMode
  nodes : List NodeRef
  deriving DecidableEq

/-- `evaluate_jsonpath` (jsonpath.c lines 290-315): an evaluation error
yields NULL in strict mode and an empty result set in lenient mode;
otherwise, when a positive limit is given and exceeded, the node list is
truncated to the first limit entries before the results are built. -/
def evaluate_jsonpath (fuel : Nat) (doc : JsonValue) (expr : CStr)
    (opt : JsonPathOptions) : Option JsonPathResults :=
  match eval_steps fuel opt.strict doc expr with
  | none =>
      if opt.strict then none
      else some { mode := opt.mode, nodes := [] }
  | some nodes =>
      let limit : Int := if opt.limit > 0 then opt.limit else (nodes.length : Int)
      some { mode := opt.mode,
             nodes := if limit < (nodes.length : Int) then nodes.take limit.toNat
                      else nodes }

/-! ## C7: dot form vs bracket-quoted form in result paths -/

/-- The identifier shape named by the claim ([A-Za-z_][A-Za-z0-9_]*),
written from the spec's words, to be compared with the code's test. -/
def identShapeSpec : CStr → Bool
  | [] => false
  | c :: rest => (isalphaB c || c == 95) && rest.all (fun d => isalnumB d || d == 95)

/-- C7 counterexample: the key "a-b" does not match the identifier shape
[A-Za-z_][A-Za-z0-9_]*, yet path_append_prop appends the dot form ".a-b"
(producing "$.a-b"), because the code inspects only the first byte of the
key. -/
theorem c7_dot_form_counterexample :
    identShapeSpec [97, 45, 98] = false ∧
      path_append_prop [36] [97, 45, 98] = [36] ++ [46] ++ [97, 45, 98] := by
  constructor
  · decide
  · rfl

/-- C7 amended: path_append_prop appends the dot form exactly when the
key's FIRST byte is a letter or underscore (later bytes are never
inspected); otherwise it appends the bracket-quoted form. -/
theorem c7_path_append_prop_first_char_only (base name : CStr) :
    (path_append_prop base name = base ++ [46] ++ name ↔ identStartB name = true) ∧
      (identStartB name = false →
        path_append_prop base name = base ++ [91, 39] ++ name ++ [39, 93]) := by
  unfold path_append_prop
  by_cases h : identStartB name = true
  · rw [if_pos h]
    exact ⟨⟨fun _ => h, fun _ => rfl⟩, fun hc => absurd h (by simp [hc])⟩
  · rw [if_neg h]
    refine ⟨⟨fun heq => ?_, fun hc => absurd hc h⟩,
            fun _ => rfl⟩
    exfalso
    simp only [List.append_assoc, List.cons_append, List.nil_append] at heq
    have h2 := List.append_cancel_left heq
    simp at h2

/-- Witness for the amended C7 theorem at the key "-" (first byte not a
letter or underscore). -/
theorem c7_path_append_prop_witness :
    path_append_prop [36] [45] = [36] ++ [91, 39] ++ [45] ++ [39, 93] :=
  (c7_path_append_prop_first_char_only [36] [45]).2 (by decide)

/-! ## C9: the result limit -/

/-- C9 confirmed: with a positive limit, evaluate_jsonpath never returns
more than limit entries — an evaluation error yields no entries (strict)
or an empty result set (lenient), and a successful evaluation truncates
the node list to the first limit entries (jsonpath.c lines 302-303). -/
theorem c9_limit_bounds_result_count (fuel : Nat) (doc : JsonValue) (expr : CStr)
    (opt : JsonPathOptions) (res : JsonPathResults)
    (hpos : 0 < opt.limit)
    (heval : evaluate_jsonpath fuel doc expr opt = some res) :
    (res.nodes.length : Int) ≤ opt.limit := by
  unfold evaluate_jsonpath at heval
  rcases h : eval_steps fuel opt.strict doc expr with _ | nodes
  · rw [h] at heval
    cases hs : opt.strict with
    | true => rw [hs] at heval; simp at heval
    | false =>
        rw [hs] at heval
        simp only [Bool.false_eq_true, if_false, Option.some.injEq] at heval
        rw [← heval]
        simpa using le_of_lt hpos
  · rw [h] at heval
    simp only [Option.some.injEq] at heval
    rw [← heval]
    simp only [if_pos hpos]
    by_cases hlt : opt.limit < (nodes.length : Int)
    · rw [if_pos hlt]
      have hlen : ((nodes.take opt.limit.toNat).length : Int) =
          ((min opt.limit.toNat nodes.length : Nat) : Int) := by
        rw [List.length_take]
      rw [hlen]
      have := Int.toNat_of_nonneg (le_of_lt hpos)
      omega
    · rw [if_neg hlt]
      omega

/-- Witness: a three-element array queried with "$[*]" and limit 2 keeps
exactly the first two nodes. -/
theorem c9_limit_witness :
    (0 : Int) < 2 ∧
      ((JsonPathResults.mk JsonPathMode.modeValues
          [(JsonValue.null, [36, 91, 48, 93]),
           (JsonValue.null, [36, 91, 49, 93])]).nodes.length : Int) ≤ 2 :=
  ⟨by decide,
   c9_limit_bounds_result_count 10
     (JsonValue.arr [JsonValue.null, JsonValue.null, JsonValue.null])
     [36, 91, 42, 93]
     ⟨JsonPathMode.modeValues, 2, false⟩
     ⟨JsonPathMode.modeValues,
      [(JsonValue.null, [36, 91, 48, 93]), (JsonValue.null, [36, 91, 49, 93])]⟩
     (by decide) (by decide)⟩

/-! ## C6: slice selection -/

/-- Membership in the slice loop, for a positive step and enough fuel. -/
theorem sliceGo_mem (fuel : Nat) :
    ∀ s e step i, 1 ≤ step → e - s ≤ fuel →
      (i ∈ sliceGo fuel s e step ↔ s ≤ i ∧ i < e ∧ (i - s) % step = 0) := by
  induction fuel with
  | zero =>
      intro s e step i _ hf
      simp only [sliceGo, List.not_mem_nil, false_iff]
      omega
  | succ fuel ih =>
      intro s e step i hstep hf
      by_cases hse : s < e
      · rw [sliceGo, if_pos hse]
        rw [List.mem_cons, ih (s + step) e step i hstep (by omega)]
        constructor
        · rintro (rfl | ⟨h1, h2, h3⟩)
          · exact ⟨le_refl _, hse, by simp⟩
          · refine ⟨by omega, h2, ?_⟩
            have : i - s = (i - (s + step)) + step := by omega
            rw [this, Nat.add_mod_right, h3]
        · rintro ⟨h1, h2, h3⟩
          by_cases hi : i = s
          · exact Or.inl hi
          · right
            have hpos : 0 < i - s := by omega
            have hdvd : step ∣ (i - s) := Nat.dvd_of_mod_eq_zero h3
            have hle : step ≤ i - s := Nat.le_of_dvd hpos hdvd
            refine ⟨by omega, h2, ?_⟩
            have : i - s = (i - (s + step)) + step := by omega
            rw [this, Nat.add_mod_right] at h3
            exact h3
      · rw [sliceGo, if_neg hse]
        simp only [List.not_mem_nil, false_iff]
        omega

/-- C6 counterexample: on the array [1, 2, 3], the slice "$[:2]" with
omitted start selects nothing in lenient mode and is an error in strict
mode — the omitted start is a parse error, not index 0 — while the
explicit "$[0:2]" selects the first two elements. -/
theorem c6_omitted_start_counterexample :
    evaluate_jsonpath 20
        (JsonValue.arr [JsonValue.number ⟨1, 0⟩, JsonValue.number ⟨2, 0⟩,
                        JsonValue.number ⟨3, 0⟩])
        [36, 91, 58, 50, 93] ⟨JsonPathMode.modeValues, 0, false⟩ =
      some ⟨JsonPathMode.modeValues, []⟩ ∧
    evaluate_jsonpath 20
        (JsonValue.arr [JsonValue.number ⟨1, 0⟩, JsonValue.number ⟨2, 0⟩,
                        JsonValue.number ⟨3, 0⟩])
        [36, 91, 58, 50, 93] ⟨JsonPathMode.modeValues, 0, true⟩ = none ∧
    evaluate_jsonpath 20
        (JsonValue.arr [JsonValue.number ⟨1, 0⟩, JsonValue.number ⟨2, 0⟩,
                        JsonValue.number ⟨3, 0⟩])
        [36, 91, 48, 58, 50, 93] ⟨JsonPathMode.modeValues, 0, false⟩ =
      some ⟨JsonPathMode.modeValues,
            [(JsonValue.number ⟨1, 0⟩, [36, 91, 48, 93]),
             (JsonValue.number ⟨2, 0⟩, [36, 91, 49, 93])]⟩ := by
  refine ⟨by decide, by decide, by decide⟩

/-- C6 amended: with an explicit non-negative start and positive step, the
slice selects exactly the indices i with start ≤ i < end, i ≡ start (mod
step), in increasing order, where an omitted end means the array length;
an omitted START is a parse error of the whole subscript (the code
requires a leading integer), not index 0. -/
theorem c6_slice_selection :
    (∀ s e step i, 1 ≤ step →
        (i ∈ sliceIndices s e step ↔ s ≤ i ∧ i < e ∧ (i - s) % step = 0)) ∧
    (∀ (strict : Bool) (start e0 step : Int) (items : List JsonValue) (p : CStr),
        0 ≤ start →
        sliceNodes strict start e0 false step [(JsonValue.arr items, p)] =
          some ((sliceIndices start.toNat items.length
              (if step ≤ 0 then 1 else step).toNat).filterMap (fun idx =>
            (items.get? idx).map (fun c =>
              (c, path_append_index p (idx : Int)))))) ∧
    (∀ (fuel : Nat) (strict : Bool) (cur : List NodeRef) (rest : CStr),
        apply_array_subscript fuel strict cur (58 :: rest) = none) := by
  refine ⟨?_, ?_, ?_⟩
  · intro s e step i hstep
    exact sliceGo_mem (e - s) s e step i hstep (le_refl _)
  · intro strict start e0 step items p hstart
    simp only [sliceNodes, Bool.false_eq_true, if_false]
    rw [if_neg (by omega)]
    simp only [sliceNodes, min_self, Int.toNat_natCast]
    simp
  · intro fuel strict cur rest
    rfl

/-- Witness for the amended C6 theorem at concrete inputs: step 1 on
indices [0,2), a two-element array slice with omitted end, and the
subscript ":..." (omitted start) as an error. -/
theorem c6_slice_selection_witness :
    (1 ∈ sliceIndices 0 2 1 ↔ 0 ≤ 1 ∧ 1 < 2 ∧ (1 - 0) % 1 = 0) ∧
    sliceNodes false 0 7 false 1
        [(JsonValue.arr [JsonValue.null, JsonValue.bool true], [36])] =
      some ((sliceIndices (0 : Int).toNat
          [JsonValue.null, JsonValue.bool true].length
          (if (1 : Int) ≤ 0 then (1 : Int) else 1).toNat).filterMap (fun idx =>
        ([JsonValue.null, JsonValue.bool true].get? idx).map (fun c =>
          (c, path_append_index [36] (idx : Int))))) ∧
    apply_array_subscript 5 false [] [58] = none :=
  ⟨c6_slice_selection.1 0 2 1 1 (by decide),
   c6_slice_selection.2.1 false 0 7 1 [JsonValue.null, JsonValue.bool true] [36]
     (by decide),
   c6_slice_selection.2.2 5 false [] []⟩

/-! ## JSON parser (json_parse.c) -/

/-- skip_whitespace of the parser: exactly space, tab, newline, carriage
return (narrower than C isspace). -/
def jsonSkipWs (s : CStr) : CStr :=
  s.dropWhile (fun c => c == 32 || c == 9 || c == 10 || c == 13)

/-- The escape table of parse_string's second pass: b f n r t map to
control characters; every other escaped byte (including quote, backslash,
slash and unrecognised escapes) stands for itself. -/
def unescapeChar (e : Nat) : Nat :=
  if e = 98 then 8
  else if e = 102 then 12
  else if e = 110 then 10
  else if e = 114 then 13
  else if e = 116 then 9
  else e

/-- Body of parse_string after the opening quote: content bytes until the
unescaped closing quote; none when the input ends first (also with a
trailing backslash). -/
def parseStringGo : CStr → Option (CStr × CStr)
  | [] => none
  | c :: rest =>
      if c = 34 then some ([], rest)
      else if c = 92 then
        match rest with
        | [] => none
        | e :: rest2 =>
            (parseStringGo rest2).map (fun pr => (unescapeChar e :: pr.1, pr.2))
      else (parseStringGo rest).map (fun pr => (c :: pr.1, pr.2))

/-- parse_string (json_parse.c lines 39-133). -/
def parse_string : CStr → Option (CStr × CStr)
  | 34 :: rest => parseStringGo rest
  | _ => none

/-- The number scan of parse_number (json_parse.c lines 287-307): consumes
digits, signs anywhere, at most one '.', at most one e/E; the second
occurrence of '.' or of an exponent letter, or any other byte, ends the
token.  Returns (consumed slice, rest). -/
def numScanGo : CStr → Bool → Bool → CStr × CStr
  | [], _, _ => ([], [])
  | c :: rest, hasDec, hasExp =>
      if c = 46 then
        (if hasDec then ([], c :: rest)
         else
           let r := numScanGo rest true hasExp
           (c :: r.1, r.2))
      else if c = 101 ∨ c = 69 then
        (if hasExp then ([], c :: rest)
         else
           let r := numScanGo rest hasDec true
           (c :: r.1, r.2))
      else if isdigitB c || c = 45 || c = 43 then
        let r := numScanGo rest hasDec hasExp
        (c :: r.1, r.2)
      else ([], c :: rest)

/-- parse_number (json_parse.c lines 271-331): the first byte must be a
digit, '-', '+' or '.'; the scanned slice is converted with
strtod(num_str, NULL) - whatever valid prefix it has, 0.0 when none. -/
def parse_number (s : CStr) : Option (JsonValue × CStr) :=
  match s with
  | [] => none
  | c :: _ =>
      if isdigitB c || c = 45 || c = 43 || c = 46 then
        let r := numScanGo s false false
        some (JsonValue.number (strtodPrefix r.1).1, r.2)
      else none

mutual
/-- parse_value (json_parse.c lines 334-417): dispatch on the first
non-whitespace byte; true/false/null need the full keyword; everything
unrecognised is tried as a number. -/
def parse_value : Nat → CStr → Option (JsonValue × CStr)
  | 0, _ => none
  | fuel + 1, s =>
      match s with
      | [] => none
      | _ =>
        match jsonSkipWs s with
        | 123 :: rest => parse_object fuel (123 :: rest)
        | 91 :: rest => parse_array fuel (91 :: rest)
        | 34 :: rest =>
            (parse_string (34 :: rest)).map (fun r => (JsonValue.str r.1, r.2))
        | 116 :: 114 :: 117 :: 101 :: rest => some (JsonValue.bool true, rest)
        | 116 :: _ => none
        | 102 :: 97 :: 108 :: 115 :: 101 :: rest => some (JsonValue.bool false, rest)
        | 102 :: _ => none
        | 110 :: 117 :: 108 :: 108 :: rest => some (JsonValue.null, rest)
        | 110 :: _ => none
        | s0 => parse_number s0

/-- parse_array (json_parse.c lines 136-188). -/
def parse_array : Nat → CStr → Option (JsonValue × CStr)
  | 0, _ => none
  | fuel + 1, s =>
      match s with
      | 91 :: rest =>
          (match jsonSkipWs rest with
           | 93 :: rest2 => some (JsonValue.arr [], rest2)
           | s1 => (parseArrayLoop fuel [] s1).map (fun r => (JsonValue.arr r.1, r.2)))
      | _ => none

/-- The element loop of parse_array; elements are appended at the end
(add_to_array), a ']' closes, a ',' continues, anything else is an error,
and so is running out of input. -/
def parseArrayLoop : Nat → List JsonValue → CStr → Option (List JsonValue × CStr)
  | 0, _, _ => none
  | fuel + 1, acc, s =>
      match s with
      | [] => none
      | _ =>
        match parse_value fuel (jsonSkipWs s) with
        | none => none
        | some (v, s1) =>
            match jsonSkipWs s1 with
            | 93 :: rest => some (acc ++ [v], rest)
            | 44 :: rest => parseArrayLoop fuel (acc ++ [v]) rest
            | _ => none

/-- parse_object (json_parse.c lines 191-268). -/
def parse_object : Nat → CStr → Option (JsonValue × CStr)
  | 0, _ => none
  | fuel + 1, s =>
      match s with
      | 123 :: rest =>
          (match jsonSkipWs rest with
           | 125 :: rest2 => some (JsonValue.obj [], rest2)
           | s1 => (parseObjectLoop fuel [] s1).map (fun r => (JsonValue.obj r.1, r.2)))
      | _ => none

/-- The member loop of parse_object; members are inserted with
add_to_object (duplicate keys replace in place, new keys are PREPENDED, so
the in-memory member order is the reverse of document order). -/
def parseObjectLoop : Nat → Members → CStr → Option (Members × CStr)
  | 0, _, _ => none
  | fuel + 1, acc, s =>
      match s with
      | [] => none
      | _ =>
        match parse_string (jsonSkipWs s) with
        | none => none
        | some (key, s1) =>
            match jsonSkipWs s1 with
            | 58 :: s3 =>
                (match parse_value fuel (jsonSkipWs s3) with
                 | none => none
                 | some (v, s5) =>
                    match jsonSkipWs s5 with
                    | 125 :: rest => some (add_to_object acc key v, rest)
                    | 44 :: rest => parseObjectLoop fuel (add_to_object acc key v) rest
                    | _ => none)
            | _ => none
end

/-- parse_json_string (json_parse.c lines 422-455): NULL and empty inputs
are rejected; extra characters after the value only warn. -/
def parse_json_string (fuel : Nat) (s : CStr) : Option JsonValue :=
  if s = [] then none
  else (parse_value fuel s).map Prod.fst

/-! ## C10: acceptance of invalid number tokens -/

/-- RFC 8259 JSON number grammar int part: "0" or a nonzero digit followed
by digits. -/
def jnInt : CStr → Option CStr
  | 48 :: r => some r
  | c :: r => if isdigitB c && c != 48 then some (r.dropWhile isdigitB) else none
  | [] => none

/-- Optional frac part: '.' followed by at least one digit. -/
def jnFrac : CStr → Option CStr
  | 46 :: r =>
      (match r with
       | d :: _ => if isdigitB d then some (r.dropWhile isdigitB) else none
       | [] => none)
  | s => some s

/-- Optional exp part: e/E, optional sign, at least one digit. -/
def jnExp : CStr → Option CStr
  | c :: r =>
      if c = 101 ∨ c = 69 then
        let r2 : CStr := match r with | 43 :: t => t | 45 :: t => t | _ => r
        match r2 with
        | d :: _ => if isdigitB d then some (r2.dropWhile isdigitB) else none
        | [] => none
      else some (c :: r)
  | [] => some []

/-- Valid JSON number syntax per the grammar the claim refers to:
[ '-' ] int [ frac ] [ exp ] consuming the whole token.  Written from the
claim's words ("valid JSON number syntax"), to be compared with what the
code accepts. -/
def jsonNumberSyntaxB (s : CStr) : Bool :=
  let s1 : CStr := match s with | 45 :: r => r | _ => s
  match jnInt s1 with
  | none => false
  | some r1 =>
      match jnFrac r1 with
      | none => false
      | some r2 =>
          match jnExp r2 with
          | none => false
          | some r3 => r3.isEmpty

/-- C10 confirmed: the parser accepts "+5", "1-2" and "." - none of which
is valid JSON number syntax - and returns the number strtod computes from
the scanned slice: +5 parses as 5, "1-2" is scanned whole but strtod stops
at the '-' giving 1, and "." gives strtod's no-conversion result 0. -/
theorem c10_parser_accepts_invalid_numbers :
    jsonNumberSyntaxB [43, 53] = false ∧
      parse_json_string 10 [43, 53] = some (JsonValue.number ⟨5, 0⟩) ∧
    jsonNumberSyntaxB [49, 45, 50] = false ∧
      parse_json_string 10 [49, 45, 50] = some (JsonValue.number ⟨1, 0⟩) ∧
    jsonNumberSyntaxB [46] = false ∧
      parse_json_string 10 [46] = some (JsonValue.number ⟨0, 0⟩) ∧
    jsonNumberSyntaxB [53] = true ∧
      parse_json_string 10 [53] = some (JsonValue.number ⟨5, 0⟩) := by
  decide
